import Mathlib

/-!
Verification of the Go board engine in `src/lib/goban.rs` (sgf-render).

The Rust code is shallowly embedded: the `HashMap<(u8, u8), StoneColor>` of
placements becomes an association list whose lookup returns the most recent
binding, `u8`/`u64` values become `Nat` (no arithmetic in the code can
overflow on the values the checks allow), and methods that mutate `&mut self`
and return `Result<(), E>` become functions `Goban → ... → Goban × Option E`.
The capture flood fill (a `while let` worklist loop) is embedded with an
explicit fuel argument; `capturesLoop_sound` proves the chosen fuel always
suffices, so the embedded function agrees with the loop on every input.
-/

/-- Stone colors, from `enum StoneColor`. -/
inductive StoneColor where
  | Black : StoneColor
  | White : StoneColor
deriving DecidableEq, Repr

/-- The opponent of a color, from the `match` at the top of `play_stone`. -/
def StoneColor.opponent : StoneColor → StoneColor
  | StoneColor.Black => StoneColor.White
  | StoneColor.White => StoneColor.Black

/-- A stone, from `struct Stone`. -/
structure Stone where
  x : Nat
  y : Nat
  color : StoneColor
deriving DecidableEq, Repr

/-- The placement map `HashMap<(u8, u8), StoneColor>`, embedded as an
association list; the first binding for a key is its value. -/
abbrev StoneMap : Type := List ((Nat × Nat) × StoneColor)

/-- `HashMap::get`. -/
def mapLookup : StoneMap → (Nat × Nat) → Option StoneColor
  | [], _ => none
  | kv :: rest, k => if kv.1 = k then some kv.2 else mapLookup rest k

/-- `HashMap::contains_key`. -/
def mapContains (m : StoneMap) (k : Nat × Nat) : Bool :=
  (mapLookup m k).isSome

/-- `HashMap::insert` (at lookup level, the new binding shadows any old one). -/
def mapInsert (m : StoneMap) (k : Nat × Nat) (c : StoneColor) : StoneMap :=
  (k, c) :: m

/-- `HashMap::remove`: all bindings of the key disappear. -/
def mapRemove (m : StoneMap) (k : Nat × Nat) : StoneMap :=
  m.filter (fun kv => !(decide (kv.1 = k)))

/-- `HashSet::insert` on the seen-set of the flood fill. -/
def listInsert (l : List (Nat × Nat)) (p : Nat × Nat) : List (Nat × Nat) :=
  if p ∈ l then l else p :: l

/-- The board, from `struct Goban`. `size` is `(width, height)`. -/
structure Goban where
  size : Nat × Nat
  stones : StoneMap
  move_number : Nat
  black_captures : Nat
  white_captures : Nat
deriving DecidableEq, Repr

/-- The single error kind, from `enum GobanError`. -/
inductive GobanError where
  | InvalidMoveError : GobanError
deriving DecidableEq, Repr

/-- `Goban::new`. -/
def Goban.new (board_size : Nat × Nat) : Goban :=
  { size := board_size
    stones := []
    move_number := 0
    black_captures := 0
    white_captures := 0 }

/-- `Goban::neighbors`, in the push order of the Rust code:
`(x+1, y)`, `(x-1, y)`, `(x, y+1)`, `(x, y-1)`, each guarded by the same
bound checks (`x < size.0 - 1`, `x > 0`, `y < size.1 - 1`, `y > 0`). -/
def neighbors (size : Nat × Nat) (point : Nat × Nat) : List (Nat × Nat) :=
  (if point.1 < size.1 - 1 then [(point.1 + 1, point.2)] else []) ++
  (if 0 < point.1 then [(point.1 - 1, point.2)] else []) ++
  (if point.2 < size.2 - 1 then [(point.1, point.2 + 1)] else []) ++
  (if 0 < point.2 then [(point.1, point.2 - 1)] else [])

/-- `Goban::add_stone`. Note the source bound check is `stone.x > self.size.0`
(strict `>`), so a coordinate equal to the dimension passes validation. -/
def Goban.add_stone (g : Goban) (stone : Stone) : Goban × Option GobanError :=
  if stone.x > g.size.1 ∨ stone.y > g.size.2 then
    (g, some GobanError.InvalidMoveError)
  else if mapContains g.stones (stone.x, stone.y) then
    (g, some GobanError.InvalidMoveError)
  else
    ({ g with stones := mapInsert g.stones (stone.x, stone.y) stone.color }, none)

/-- Result of one run of the `while let` worklist loop in `process_captures`:
early `return` on a liberty, loop drained with the collected group, or the
fuel bound was hit (`capturesLoop_sound` shows the last never happens at the
fuel `process_captures` supplies). -/
inductive LoopResult where
  | liberty : LoopResult
  | captured : List (Nat × Nat) → LoopResult
  | outOfFuel : LoopResult
deriving DecidableEq, Repr

/-- The inner `for neighbor in self.neighbors(p)` of `process_captures`:
skip seen neighbors, `return` on an unoccupied one (`none`), push same-colored
ones onto the worklist (`push_back`/`pop_back` make the worklist a stack, so a
push is a `cons`). -/
def scanNeighbors (stones : StoneMap) (group_color : StoneColor)
    (group : List (Nat × Nat)) :
    List (Nat × Nat) → List (Nat × Nat) → Option (List (Nat × Nat))
  | [], acc => some acc
  | n :: ns, acc =>
    if n ∈ group then
      scanNeighbors stones group_color group ns acc
    else
      match mapLookup stones n with
      | none => none
      | some c =>
        if c = group_color then
          scanNeighbors stones group_color group ns (n :: acc)
        else
          scanNeighbors stones group_color group ns acc

/-- The `while let Some(p) = to_process.pop_back()` loop of
`process_captures`, with fuel. -/
def capturesLoop (size : Nat × Nat) (stones : StoneMap)
    (group_color : StoneColor) :
    Nat → List (Nat × Nat) → List (Nat × Nat) → LoopResult
  | _, group, [] => LoopResult.captured group
  | 0, _, _ :: _ => LoopResult.outOfFuel
  | fuel + 1, group, p :: rest =>
    let g := listInsert group p
    match scanNeighbors stones group_color g (neighbors size p) rest with
    | none => LoopResult.liberty
    | some tp => capturesLoop size stones group_color fuel g tp

/-- Fuel that always suffices for the worklist loop (see
`capturesLoop_sound`). -/
def captureFuel (stones : StoneMap) : Nat :=
  4 * stones.length + 2

/-- The `for stone in group { self.stones.remove(&stone); }` loop. -/
def removeGroup (stones : StoneMap) (group : List (Nat × Nat)) : StoneMap :=
  group.foldl (fun m k => mapRemove m k) stones

/-- `Goban::process_captures`. -/
def Goban.process_captures (g : Goban) (start_point : Nat × Nat) : Goban :=
  match mapLookup g.stones start_point with
  | none => g
  | some group_color =>
    match capturesLoop g.size g.stones group_color (captureFuel g.stones)
        [] [start_point] with
    | LoopResult.liberty => g
    | LoopResult.outOfFuel => g
    | LoopResult.captured group =>
      let g' :=
        match group_color with
        | StoneColor.Black =>
          { g with black_captures := g.black_captures + group.length }
        | StoneColor.White =>
          { g with white_captures := g.white_captures + group.length }
      { g' with stones := removeGroup g'.stones group }

/-- The `for neighbor in self.neighbors(key)` loop of `play_stone`: capture
any neighboring opponent group with no liberties; lookups see the updates of
earlier iterations. -/
def captureNeighbors (opponent_color : StoneColor) :
    Goban → List (Nat × Nat) → Goban
  | g, [] => g
  | g, neighbor :: ns =>
    match mapLookup g.stones neighbor with
    | some color =>
      if color = opponent_color then
        captureNeighbors opponent_color (g.process_captures neighbor) ns
      else
        captureNeighbors opponent_color g ns
    | none => captureNeighbors opponent_color g ns

/-- `Goban::play_stone`. -/
def Goban.play_stone (g : Goban) (stone : Stone) : Goban × Option GobanError :=
  match g.add_stone stone with
  | (g1, some e) => (g1, some e)
  | (g1, none) =>
    let g2 := captureNeighbors stone.color.opponent g1
      (neighbors g1.size (stone.x, stone.y))
    let g3 := g2.process_captures (stone.x, stone.y)
    ({ g3 with move_number := g3.move_number + 1 }, none)

/-- `Goban::clear_point`. -/
def Goban.clear_point (g : Goban) (point : Nat × Nat) : Goban :=
  { g with stones := mapRemove g.stones point }

/-- `Goban::set_move_number`. -/
def Goban.set_move_number (g : Goban) (num : Nat) : Goban :=
  { g with move_number := num }

/-- `Goban::DEFAULT_HOSHIS`. -/
def Goban.DEFAULT_HOSHIS : List (Nat × Nat) := []

/-- `Goban::NINE_HOSHIS`. -/
def Goban.NINE_HOSHIS : List (Nat × Nat) := [(2, 2), (2, 6), (6, 2), (6, 6)]

/-- `Goban::THIRTEEN_HOSHIS`. -/
def Goban.THIRTEEN_HOSHIS : List (Nat × Nat) :=
  [(3, 3), (3, 9), (6, 6), (9, 3), (9, 9)]

/-- `Goban::NINETEEN_HOSHIS`. -/
def Goban.NINETEEN_HOSHIS : List (Nat × Nat) :=
  [(3, 3), (3, 9), (3, 15), (9, 3), (9, 9), (9, 15), (15, 3), (15, 9), (15, 15)]

/-- `Goban::hoshi_points` (the `match self.size` dispatch). -/
def Goban.hoshi_points (g : Goban) : List (Nat × Nat) :=
  if g.size = (9, 9) then Goban.NINE_HOSHIS
  else if g.size = (13, 13) then Goban.THIRTEEN_HOSHIS
  else if g.size = (19, 19) then Goban.NINETEEN_HOSHIS
  else Goban.DEFAULT_HOSHIS

/-- `Goban::is_tt_pass`. -/
def Goban.is_tt_pass (g : Goban) (point : Nat × Nat) : Bool :=
  decide (point.1 = 19) && decide (point.2 = 19) &&
    decide (g.size.1 < 20) && decide (g.size.2 < 20)

/-- The decoded SGF node properties handled by `Goban::process_node`
(`sgf_parse::SgfProp` restricted to the matched arms; a `B`/`W` record
carries the point of a `Move::Move`). -/
inductive SgfOp where
  | B : Nat → Nat → SgfOp
  | W : Nat → Nat → SgfOp
  | AB : List (Nat × Nat) → SgfOp
  | AW : List (Nat × Nat) → SgfOp
  | AE : List (Nat × Nat) → SgfOp
  | MN : Nat → SgfOp
deriving DecidableEq, Repr

/-- The `for point in points.iter() { self.add_stone(...)?; }` loop of the
`AB`/`AW` arms: the `?` aborts on the first error, keeping earlier insertions. -/
def addStones (g : Goban) (color : StoneColor) :
    List (Nat × Nat) → Goban × Option GobanError
  | [] => (g, none)
  | p :: ps =>
    match g.add_stone (Stone.mk p.1 p.2 color) with
    | (g', none) => addStones g' color ps
    | (g', some e) => (g', some e)

/-- One arm of the `match prop` in `Goban::process_node`. -/
def Goban.process_prop (g : Goban) : SgfOp → Goban × Option GobanError
  | SgfOp.B x y =>
    if g.is_tt_pass (x, y) then (g, none)
    else g.play_stone (Stone.mk x y StoneColor.Black)
  | SgfOp.W x y =>
    if g.is_tt_pass (x, y) then (g, none)
    else g.play_stone (Stone.mk x y StoneColor.White)
  | SgfOp.AB points => addStones g StoneColor.Black points
  | SgfOp.AW points => addStones g StoneColor.White points
  | SgfOp.AE points => (points.foldl (fun gg p => gg.clear_point p) g, none)
  | SgfOp.MN num => (g.set_move_number num, none)

/-! ## Specification-side predicates

These state, in relational form, what the claims talk about: same-color
connectivity through `neighbors`, liberties of the group containing a point,
and the no-dead-group board invariant. -/

/-- `Reach size stones color p q`: `q` belongs to the same-color group grown
from `p` by following `neighbors` steps through stones of `color` (the set the
flood fill of `process_captures` explores). -/
inductive Reach (size : Nat × Nat) (stones : StoneMap) (color : StoneColor) :
    (Nat × Nat) → (Nat × Nat) → Prop where
  | refl (p : Nat × Nat) : mapLookup stones p = some color →
      Reach size stones color p p
  | step (p q r : Nat × Nat) : Reach size stones color p q →
      r ∈ neighbors size q → mapLookup stones r = some color →
      Reach size stones color p r

/-- The group grown from `p` has a liberty: some member has an unoccupied
neighbor. -/
def HasLiberty (size : Nat × Nat) (stones : StoneMap) (color : StoneColor)
    (p : Nat × Nat) : Prop :=
  ∃ q e, Reach size stones color p q ∧ e ∈ neighbors size q ∧
    mapLookup stones e = none

/-- The board invariant of the specification: no occupied point belongs to a
group with zero liberties. -/
def NoDeadGroup (g : Goban) : Prop :=
  ∀ p color, mapLookup g.stones p = some color →
    HasLiberty g.size g.stones color p

/-- Every stone sits strictly inside the board. -/
def AllInBounds (g : Goban) : Prop :=
  ∀ p color, mapLookup g.stones p = some color →
    p.1 < g.size.1 ∧ p.2 < g.size.2

/-- Boards reachable from an empty board by played moves at strictly
in-bounds points, clears, and move-counter updates (no setup stones, no
out-of-bounds placements). -/
inductive ReachableIB : Goban → Prop where
  | new (board_size : Nat × Nat) : ReachableIB (Goban.new board_size)
  | play (g : Goban) (s : Stone) : ReachableIB g → s.x < g.size.1 →
      s.y < g.size.2 → ReachableIB (g.play_stone s).1
  | clear (g : Goban) (p : Nat × Nat) : ReachableIB g →
      ReachableIB (g.clear_point p)
  | setNum (g : Goban) (n : Nat) : ReachableIB g →
      ReachableIB (g.set_move_number n)

/-- Count of stones of a color whose point is not yet in the seen-set; the
termination measure of the worklist loop decreases with it. -/
def looseCount (stones : StoneMap) (gc : StoneColor)
    (group : List (Nat × Nat)) : Nat :=
  stones.countP (fun kv => decide (kv.2 = gc) && !(decide (kv.1 ∈ group)))

/-- Invariant of the worklist loop of `process_captures`, for a run started
at `start` with `group` the seen-set and `tp` the stack. `pos` is the
stack-discipline invariant: a seen point still on the stack has all its
same-color neighbors either seen or strictly above it. -/
structure LoopInv (size : Nat × Nat) (stones : StoneMap) (gc : StoneColor)
    (start : Nat × Nat) (group tp : List (Nat × Nat)) : Prop where
  mem_group : ∀ p ∈ group, mapLookup stones p = some gc ∧
    Reach size stones gc start p
  mem_tp : ∀ p ∈ tp, mapLookup stones p = some gc ∧
    Reach size stones gc start p
  nodup : group.Nodup
  closure : ∀ p ∈ group, ∀ n ∈ neighbors size p,
    mapLookup stones n = some gc → n ∈ group ∨ n ∈ tp
  occupied : ∀ p ∈ group, ∀ n ∈ neighbors size p, mapLookup stones n ≠ none
  start_mem : start ∈ group ∨ start ∈ tp
  pos : ∀ pre p suf, tp = pre ++ p :: suf → p ∈ group →
    ∀ n ∈ neighbors size p, mapLookup stones n = some gc →
      n ∈ group ∨ n ∈ pre

/-- Board exercising stones on the boundary column x = width that the `>`
bound check of `add_stone` allows: White occupies (3,0), (3,2) and the
column x = 2, Black occupies the column x = 1, on a 3×3 board. -/
def c2Board : Goban :=
  { size := (3, 3)
    stones := [((3, 0), StoneColor.White), ((3, 2), StoneColor.White),
               ((2, 0), StoneColor.White), ((2, 1), StoneColor.White),
               ((2, 2), StoneColor.White),
               ((1, 0), StoneColor.Black), ((1, 1), StoneColor.Black),
               ((1, 2), StoneColor.Black)]
    move_number := 0
    black_captures := 0
    white_captures := 0 }

/-- The 9×9 concrete scenario of the specification: White setup stones on the
four orthogonal neighbors of (4, 4). -/
def scenario9 : Goban :=
  (addStones (Goban.new (9, 9)) StoneColor.White
    [(3, 4), (5, 4), (4, 3), (4, 5)]).1

/-- Invariant of the opponent-capture loop in `play_stone`, for played color
`c` at `key`: `key` keeps its stone, and any remaining zero-liberty group
either contains the played stone or is an opponent group still waiting behind
one of the unprocessed neighbors `ns`. -/
structure FoldInv (c : StoneColor) (key : Nat × Nat) (gg : Goban)
    (ns : List (Nat × Nat)) : Prop where
  key_col : mapLookup gg.stones key = some c
  dead_to : ∀ p col, mapLookup gg.stones p = some col →
    ¬HasLiberty gg.size gg.stones col p →
      (col = c ∧ Reach gg.size gg.stones c p key) ∨
      (∃ n ∈ ns, Reach gg.size gg.stones col p n ∧
        mapLookup gg.stones n = some c.opponent)

/-! ## Basic lemmas about the map, the neighbor function, and reachability -/

theorem mapLookup_mapRemove (m : StoneMap) (k q : Nat × Nat) :
    mapLookup (mapRemove m k) q = if q = k then none else mapLookup m q := by
  induction m with
  | nil => simp [mapRemove, mapLookup]
  | cons kv rest ih =>
    by_cases hk : kv.1 = k
    · have : mapRemove (kv :: rest) k = mapRemove rest k := by
        simp [mapRemove, List.filter_cons, hk]
      rw [this, ih]
      by_cases hq : q = k
      · simp [hq]
      · have : ¬ kv.1 = q := fun h => hq (h ▸ hk ▸ rfl)
        simp [hq, mapLookup, this]
    · have : mapRemove (kv :: rest) k = kv :: mapRemove rest k := by
        simp [mapRemove, List.filter_cons, hk]
      rw [this]
      by_cases hq : kv.1 = q
      · have hqk : ¬ q = k := fun h => hk (hq.symm ▸ h ▸ rfl)
        simp [mapLookup, hq, hqk]
      · simp [mapLookup, hq]
        exact ih

theorem mapLookup_removeGroup (group : List (Nat × Nat)) :
    ∀ (m : StoneMap) (q : Nat × Nat),
      mapLookup (removeGroup m group) q =
        if q ∈ group then none else mapLookup m q := by
  induction group with
  | nil => intro m q; simp [removeGroup]
  | cons k ks ih =>
    intro m q
    have : removeGroup m (k :: ks) = removeGroup (mapRemove m k) ks := rfl
    rw [this, ih, mapLookup_mapRemove]
    by_cases h1 : q ∈ ks
    · simp [h1]
    · by_cases h2 : q = k <;> simp [h1, h2]

theorem mapLookup_mem (m : StoneMap) (q : Nat × Nat) (c : StoneColor)
    (h : mapLookup m q = some c) : (q, c) ∈ m := by
  induction m with
  | nil => simp [mapLookup] at h
  | cons kv rest ih =>
    by_cases hq : kv.1 = q
    · simp [mapLookup, hq] at h
      refine List.mem_cons.mpr (Or.inl ?_)
      rw [Prod.ext_iff]
      exact ⟨hq.symm, h.symm⟩
    · simp [mapLookup, hq] at h
      exact List.mem_cons_of_mem _ (ih h)

theorem countP_le_of_imp {α : Type} (p q : α → Bool) :
    ∀ l : List α, (∀ a ∈ l, p a = true → q a = true) →
      l.countP p ≤ l.countP q := by
  intro l
  induction l with
  | nil => intro _; simp
  | cons a as ih =>
    intro h
    rw [List.countP_cons, List.countP_cons]
    have h1 := ih (fun b hb => h b (List.mem_cons_of_mem _ hb))
    by_cases hp : p a = true
    · have hq := h a (List.mem_cons_self a as) hp
      simp [hp, hq]
      omega
    · simp [Bool.eq_false_iff.mpr hp]
      omega

theorem countP_lt_of_flip {α : Type} (p q : α → Bool) :
    ∀ l : List α, (∀ a ∈ l, p a = true → q a = true) →
      ∀ a ∈ l, q a = true → p a = false → l.countP p < l.countP q := by
  intro l
  induction l with
  | nil => intro _ a ha; simp at ha
  | cons b bs ih =>
    intro h a ha hq hp
    rw [List.countP_cons, List.countP_cons]
    have hmono := countP_le_of_imp p q bs (fun x hx => h x (List.mem_cons_of_mem _ hx))
    rcases List.mem_cons.mp ha with rfl | ha'
    · simp [hp, hq]
      omega
    · have := ih (fun x hx => h x (List.mem_cons_of_mem _ hx)) a ha' hq hp
      by_cases hb : p b = true
      · have := h b (List.mem_cons_self b bs) hb
        simp [hb, this]
        omega
      · simp [Bool.eq_false_iff.mpr hb]
        omega

theorem neighbors_cases (size p n : Nat × Nat) (h : n ∈ neighbors size p) :
    (p.1 < size.1 - 1 ∧ n = (p.1 + 1, p.2)) ∨
    (0 < p.1 ∧ n = (p.1 - 1, p.2)) ∨
    (p.2 < size.2 - 1 ∧ n = (p.1, p.2 + 1)) ∨
    (0 < p.2 ∧ n = (p.1, p.2 - 1)) := by
  unfold neighbors at h
  rcases List.mem_append.mp h with h | h1
  · rcases List.mem_append.mp h with h | h1
    · rcases List.mem_append.mp h with h1 | h1
      · split_ifs at h1 with hc
        · exact Or.inl ⟨hc, List.mem_singleton.mp h1⟩
        · simp at h1
      · split_ifs at h1 with hc
        · exact Or.inr (Or.inl ⟨hc, List.mem_singleton.mp h1⟩)
        · simp at h1
    · split_ifs at h1 with hc
      · exact Or.inr (Or.inr (Or.inl ⟨hc, List.mem_singleton.mp h1⟩))
      · simp at h1
  · split_ifs at h1 with hc
    · exact Or.inr (Or.inr (Or.inr ⟨hc, List.mem_singleton.mp h1⟩))
    · simp at h1

theorem mem_neighbors_east (size p : Nat × Nat) (h : p.1 < size.1 - 1) :
    (p.1 + 1, p.2) ∈ neighbors size p := by
  unfold neighbors
  simp [h]

theorem mem_neighbors_west (size p : Nat × Nat) (h : 0 < p.1) :
    (p.1 - 1, p.2) ∈ neighbors size p := by
  unfold neighbors
  simp [h]

theorem mem_neighbors_south (size p : Nat × Nat) (h : p.2 < size.2 - 1) :
    (p.1, p.2 + 1) ∈ neighbors size p := by
  unfold neighbors
  simp [h]

theorem mem_neighbors_north (size p : Nat × Nat) (h : 0 < p.2) :
    (p.1, p.2 - 1) ∈ neighbors size p := by
  unfold neighbors
  simp [h]

theorem self_not_mem_neighbors (size p : Nat × Nat) : p ∉ neighbors size p := by
  intro h
  rcases neighbors_cases size p p h with ⟨_, h⟩ | ⟨h0, h⟩ | ⟨_, h⟩ | ⟨h0, h⟩ <;>
    · rw [Prod.ext_iff] at h
      omega

theorem length_neighbors_le (size p : Nat × Nat) :
    (neighbors size p).length ≤ 4 := by
  unfold neighbors
  split_ifs <;> simp

theorem mem_neighbors_symm (size p n : Nat × Nat)
    (hx : p.1 < size.1) (hy : p.2 < size.2) (h : n ∈ neighbors size p) :
    p ∈ neighbors size n := by
  rcases neighbors_cases size p n h with ⟨hc, rfl⟩ | ⟨hc, rfl⟩ | ⟨hc, rfl⟩ | ⟨hc, rfl⟩
  · have := mem_neighbors_west size (p.1 + 1, p.2) (by simp)
    simpa using this
  · have he := mem_neighbors_east size (p.1 - 1, p.2) (by simp; omega)
    have hp : (p.1 - 1 + 1, p.2) = p := by
      rw [Prod.ext_iff]
      constructor
      · simp; omega
      · simp
    rw [hp] at he
    exact he
  · have := mem_neighbors_north size (p.1, p.2 + 1) (by simp)
    simpa using this
  · have hs := mem_neighbors_south size (p.1, p.2 - 1) (by simp; omega)
    have hp : (p.1, p.2 - 1 + 1) = p := by
      rw [Prod.ext_iff]
      constructor
      · simp
      · simp; omega
    rw [hp] at hs
    exact hs

/-! ## Reachability lemmas -/

theorem Reach.src_lookup {size : Nat × Nat} {stones : StoneMap}
    {col : StoneColor} {p q : Nat × Nat}
    (h : Reach size stones col p q) : mapLookup stones p = some col := by
  induction h with
  | refl hp => exact hp
  | step _ _ _ _ _ ih => exact ih

theorem Reach.dest_lookup {size : Nat × Nat} {stones : StoneMap}
    {col : StoneColor} {p q : Nat × Nat}
    (h : Reach size stones col p q) : mapLookup stones q = some col := by
  induction h with
  | refl hp => exact hp
  | step _ _ _ _ hl _ => exact hl

theorem Reach.trans {size : Nat × Nat} {stones : StoneMap}
    {col : StoneColor} {p q r : Nat × Nat}
    (h1 : Reach size stones col p q) (h2 : Reach size stones col q r) :
    Reach size stones col p r := by
  induction h2 with
  | refl _ => exact h1
  | step b c _ hn hl ih => exact Reach.step p b c ih hn hl

theorem Reach.mono {size : Nat × Nat} {s1 s2 : StoneMap} {col : StoneColor}
    (hsub : ∀ r c0, mapLookup s1 r = some c0 → mapLookup s2 r = some c0)
    {p q : Nat × Nat} (h : Reach size s1 col p q) : Reach size s2 col p q := by
  induction h with
  | refl hp => exact Reach.refl p (hsub p col hp)
  | step b c _ hn hl ih => exact Reach.step p b c ih hn (hsub c col hl)

theorem reach_subset_of_closed {size : Nat × Nat} {stones : StoneMap}
    {col : StoneColor} {start : Nat × Nat} (S : List (Nat × Nat))
    (hstart : start ∈ S)
    (hclosed : ∀ p ∈ S, ∀ n ∈ neighbors size p,
      mapLookup stones n = some col → n ∈ S) :
    ∀ q, Reach size stones col start q → q ∈ S := by
  intro q h
  induction h with
  | refl _ => exact hstart
  | step b c _ hn hl ih => exact hclosed b ih c hn hl

/-- Transfer of a reach path into a state where some stones were removed
(`mapLookup s' q` is `none` or agrees with `s`): either the whole path
survives, or the group of `p` in the new state touches a point that became
empty, which is a liberty. -/
theorem reach_transfer {size : Nat × Nat} {s s' : StoneMap} {col : StoneColor}
    (hshape : ∀ q, mapLookup s' q = none ∨ mapLookup s' q = mapLookup s q)
    {p m : Nat × Nat} (hp : mapLookup s' p = some col)
    (h : Reach size s col p m) :
    Reach size s' col p m ∨
      (∃ x e, Reach size s' col p x ∧ e ∈ neighbors size x ∧
        mapLookup s' e = none) := by
  induction h with
  | refl _ => exact Or.inl (Reach.refl p hp)
  | step b c hab hn hl ih =>
    rcases ih with hr | hlib
    · rcases hshape c with hc | hc
      · exact Or.inr ⟨b, c, hr, hn, hc⟩
      · exact Or.inl (Reach.step p b c hr hn (hc.trans hl))
    · exact Or.inr hlib

/-- Under the agreement of lookups on the whole reach set, reachability in
one map gives reachability in another. -/
theorem reach_of_agree {size : Nat × Nat} {s1 s2 : StoneMap}
    {col : StoneColor} {start : Nat × Nat}
    (hagree : ∀ q, Reach size s1 col start q →
      mapLookup s2 q = mapLookup s1 q) :
    ∀ m, Reach size s1 col start m → Reach size s2 col start m := by
  intro m h
  induction h with
  | refl hp =>
    exact Reach.refl start ((hagree start (Reach.refl start hp)).trans hp)
  | step b c hab hn hl ih =>
    have hc : Reach size s1 col start c := Reach.step start b c hab hn hl
    exact Reach.step start b c ih hn ((hagree c hc).trans hl)

/-- A liberty survives any change that only empties points. -/
theorem hasLiberty_transfer {size : Nat × Nat} {s s' : StoneMap}
    {col : StoneColor}
    (hshape : ∀ q, mapLookup s' q = none ∨ mapLookup s' q = mapLookup s q)
    {p : Nat × Nat} (hp : mapLookup s' p = some col)
    (h : HasLiberty size s col p) : HasLiberty size s' col p := by
  obtain ⟨q, e, hr, he, hl⟩ := h
  rcases reach_transfer hshape hp hr with hr' | ⟨x, e', hx, he', hl'⟩
  · refine ⟨q, e, hr', he, ?_⟩
    rcases hshape e with h' | h'
    · exact h'
    · exact h'.trans hl
  · exact ⟨x, e', hx, he', hl'⟩

theorem not_hasLiberty_of_closed {size : Nat × Nat} {stones : StoneMap}
    {col : StoneColor} {start : Nat × Nat} (S : List (Nat × Nat))
    (hstart : start ∈ S)
    (hclosed : ∀ p ∈ S, ∀ n ∈ neighbors size p,
      mapLookup stones n = some col → n ∈ S)
    (hocc : ∀ p ∈ S, ∀ n ∈ neighbors size p, mapLookup stones n ≠ none) :
    ¬HasLiberty size stones col start := by
  rintro ⟨q, e, hr, he, hl⟩
  exact hocc q (reach_subset_of_closed S hstart hclosed q hr) e he hl

/-- Reachability is symmetric while every stone is strictly in bounds. -/
theorem reach_symm {size : Nat × Nat} {stones : StoneMap} {col : StoneColor}
    (hib : ∀ r c0, mapLookup stones r = some c0 → r.1 < size.1 ∧ r.2 < size.2)
    {p q : Nat × Nat} (h : Reach size stones col p q) :
    Reach size stones col q p := by
  induction h with
  | refl hp => exact Reach.refl p hp
  | step b c hab hn hl ih =>
    have hb : mapLookup stones b = some col := hab.dest_lookup
    have hbb := hib b col hb
    have hsym := mem_neighbors_symm size b c hbb.1 hbb.2 hn
    exact Reach.trans (Reach.step c c b (Reach.refl c hl) hsym hb) ih

/-! ## The worklist loop -/

theorem scanNeighbors_none (stones : StoneMap) (gc : StoneColor)
    (group : List (Nat × Nat)) :
    ∀ ns acc, scanNeighbors stones gc group ns acc = none →
      ∃ n ∈ ns, n ∉ group ∧ mapLookup stones n = none := by
  intro ns
  induction ns with
  | nil => intro acc h; simp [scanNeighbors] at h
  | cons n ns ih =>
    intro acc h
    by_cases hg : n ∈ group
    · simp only [scanNeighbors, if_pos hg] at h
      obtain ⟨m, hm, hm2⟩ := ih acc h
      exact ⟨m, List.mem_cons_of_mem _ hm, hm2⟩
    · simp only [scanNeighbors, if_neg hg] at h
      cases hl : mapLookup stones n with
      | none => exact ⟨n, List.mem_cons_self n ns, hg, hl⟩
      | some c =>
        rw [hl] at h
        by_cases hc : c = gc
        · simp only [if_pos hc] at h
          obtain ⟨m, hm, hm2⟩ := ih (n :: acc) h
          exact ⟨m, List.mem_cons_of_mem _ hm, hm2⟩
        · simp only [if_neg hc] at h
          obtain ⟨m, hm, hm2⟩ := ih acc h
          exact ⟨m, List.mem_cons_of_mem _ hm, hm2⟩

theorem scanNeighbors_some (stones : StoneMap) (gc : StoneColor)
    (group : List (Nat × Nat)) :
    ∀ ns acc tp, scanNeighbors stones gc group ns acc = some tp →
      ∃ pushed, tp = pushed ++ acc ∧ pushed.length ≤ ns.length ∧
        (∀ n ∈ pushed, n ∈ ns ∧ mapLookup stones n = some gc ∧ n ∉ group) ∧
        (∀ n ∈ ns, n ∉ group → mapLookup stones n ≠ none) ∧
        (∀ n ∈ ns, mapLookup stones n = some gc → n ∉ group → n ∈ pushed) := by
  intro ns
  induction ns with
  | nil =>
    intro acc tp h
    simp [scanNeighbors] at h
    exact ⟨[], by simp [h.symm], by simp, by simp, by simp, by simp⟩
  | cons n ns ih =>
    intro acc tp h
    by_cases hg : n ∈ group
    · simp only [scanNeighbors, if_pos hg] at h
      obtain ⟨pushed, htp, hlen, hmem, hocc, hcomp⟩ := ih acc tp h
      refine ⟨pushed, htp, by simpa using Nat.le_succ_of_le hlen, ?_, ?_, ?_⟩
      · intro m hm
        obtain ⟨h1, h2, h3⟩ := hmem m hm
        exact ⟨List.mem_cons_of_mem _ h1, h2, h3⟩
      · intro m hm hmg
        rcases List.mem_cons.mp hm with rfl | hm'
        · exact absurd hg hmg
        · exact hocc m hm' hmg
      · intro m hm hml hmg
        rcases List.mem_cons.mp hm with rfl | hm'
        · exact absurd hg hmg
        · exact hcomp m hm' hml hmg
    · simp only [scanNeighbors, if_neg hg] at h
      cases hl : mapLookup stones n with
      | none => rw [hl] at h; exact absurd h (by simp)
      | some c =>
        rw [hl] at h
        by_cases hc : c = gc
        · subst hc
          simp only [if_pos rfl] at h
          obtain ⟨pushed, htp, hlen, hmem, hocc, hcomp⟩ := ih (n :: acc) tp h
          refine ⟨pushed ++ [n], by simpa using htp, ?_, ?_, ?_, ?_⟩
          · simp only [List.length_append, List.length_cons, List.length_nil]
            omega
          · intro m hm
            rcases List.mem_append.mp hm with hm' | hm'
            · obtain ⟨h1, h2, h3⟩ := hmem m hm'
              exact ⟨List.mem_cons_of_mem _ h1, h2, h3⟩
            · rw [List.mem_singleton.mp hm']
              exact ⟨List.mem_cons_self n ns, hl, hg⟩
          · intro m hm hmg
            rcases List.mem_cons.mp hm with rfl | hm'
            · rw [hl]; simp
            · exact hocc m hm' hmg
          · intro m hm hml hmg
            rcases List.mem_cons.mp hm with rfl | hm'
            · exact List.mem_append.mpr (Or.inr (List.mem_singleton.mpr rfl))
            · exact List.mem_append.mpr (Or.inl (hcomp m hm' hml hmg))
        · simp only [if_neg hc] at h
          obtain ⟨pushed, htp, hlen, hmem, hocc, hcomp⟩ := ih acc tp h
          refine ⟨pushed, htp, by simpa using Nat.le_succ_of_le hlen, ?_, ?_, ?_⟩
          · intro m hm
            obtain ⟨h1, h2, h3⟩ := hmem m hm
            exact ⟨List.mem_cons_of_mem _ h1, h2, h3⟩
          · intro m hm hmg
            rcases List.mem_cons.mp hm with rfl | hm'
            · rw [hl]; simp
            · exact hocc m hm' hmg
          · intro m hm hml hmg
            rcases List.mem_cons.mp hm with rfl | hm'
            · rw [hl] at hml
              exact absurd (Option.some.inj hml) hc
            · exact hcomp m hm' hml hmg

theorem loopInv_final (size : Nat × Nat) (stones : StoneMap) (gc : StoneColor)
    (start : Nat × Nat) (group : List (Nat × Nat))
    (hinv : LoopInv size stones gc start group []) :
    group.Nodup ∧ (∀ q, q ∈ group ↔ Reach size stones gc start q) ∧
    (∀ p ∈ group, ∀ n ∈ neighbors size p, mapLookup stones n ≠ none) := by
  refine ⟨hinv.nodup, ?_, hinv.occupied⟩
  intro q
  constructor
  · intro h
    exact (hinv.mem_group q h).2
  · intro h
    have hstart : start ∈ group := by
      rcases hinv.start_mem with h' | h'
      · exact h'
      · simp at h'
    refine reach_subset_of_closed group hstart ?_ q h
    intro x hx n hn hl
    rcases hinv.closure x hx n hn hl with h' | h'
    · exact h'
    · simp at h'

theorem looseCount_le (stones : StoneMap) (gc : StoneColor)
    (group : List (Nat × Nat)) : looseCount stones gc group ≤ stones.length :=
  List.countP_le_length _

theorem looseCount_cons_lt (stones : StoneMap) (gc : StoneColor)
    (group : List (Nat × Nat)) (p : Nat × Nat)
    (hp : p ∉ group) (hsame : mapLookup stones p = some gc) :
    looseCount stones gc (p :: group) < looseCount stones gc group := by
  unfold looseCount
  refine countP_lt_of_flip _ _ stones ?_ (p, gc) (mapLookup_mem _ _ _ hsame) ?_ ?_
  · intro kv _ h
    simp only [Bool.and_eq_true, decide_eq_true_eq, Bool.not_eq_true',
      decide_eq_false_iff_not] at h ⊢
    exact ⟨h.1, fun hc => h.2 (List.mem_cons_of_mem _ hc)⟩
  · simp [hp]
  · simp

theorem listInsert_mem (l : List (Nat × Nat)) (p : Nat × Nat) (h : p ∈ l) :
    listInsert l p = l := by
  simp [listInsert, h]

theorem listInsert_not_mem (l : List (Nat × Nat)) (p : Nat × Nat)
    (h : p ∉ l) : listInsert l p = p :: l := by
  simp [listInsert, h]

theorem capturesLoop_sound (size : Nat × Nat) (stones : StoneMap)
    (gc : StoneColor) (start : Nat × Nat) :
    ∀ fuel group tp, LoopInv size stones gc start group tp →
      4 * looseCount stones gc group + tp.length ≤ fuel →
      (capturesLoop size stones gc fuel group tp ≠ LoopResult.outOfFuel) ∧
      (capturesLoop size stones gc fuel group tp = LoopResult.liberty →
        HasLiberty size stones gc start) ∧
      (∀ G, capturesLoop size stones gc fuel group tp = LoopResult.captured G →
        G.Nodup ∧ (∀ q, q ∈ G ↔ Reach size stones gc start q) ∧
        (∀ p ∈ G, ∀ n ∈ neighbors size p, mapLookup stones n ≠ none)) := by
  intro fuel
  induction fuel with
  | zero =>
    intro group tp hinv hmu
    cases tp with
    | nil =>
      refine ⟨by simp [capturesLoop], by simp [capturesLoop], ?_⟩
      intro G hG
      simp only [capturesLoop, LoopResult.captured.injEq] at hG
      rw [← hG]
      exact loopInv_final size stones gc start group hinv
    | cons p rest =>
      simp only [List.length_cons] at hmu
      omega
  | succ fuel ih =>
    intro group tp hinv hmu
    cases tp with
    | nil =>
      refine ⟨by simp [capturesLoop], by simp [capturesLoop], ?_⟩
      intro G hG
      simp only [capturesLoop, LoopResult.captured.injEq] at hG
      rw [← hG]
      exact loopInv_final size stones gc start group hinv
    | cons p rest =>
      have hstep : capturesLoop size stones gc (fuel + 1) group (p :: rest) =
          match scanNeighbors stones gc (listInsert group p)
              (neighbors size p) rest with
          | none => LoopResult.liberty
          | some tp2 => capturesLoop size stones gc fuel (listInsert group p) tp2 :=
        rfl
      by_cases hp : p ∈ group
      -- Case: the popped point was already seen.  By the stack invariant all
      -- its same-color neighbors are seen, so nothing is pushed.
      · rw [listInsert_mem group p hp] at hstep
        cases hscan : scanNeighbors stones gc group (neighbors size p) rest with
        | none =>
          obtain ⟨n, hn, hng, hnl⟩ := scanNeighbors_none stones gc group _ _ hscan
          exact absurd hnl (hinv.occupied p hp n hn)
        | some tp2 =>
          obtain ⟨pushed, htp2, hlen, hmem, hocc, hcomp⟩ :=
            scanNeighbors_some stones gc group _ _ _ hscan
          have hpushed : pushed = [] := by
            rcases pushed with _ | ⟨n, ps⟩
            · rfl
            · obtain ⟨hn1, hn2, hn3⟩ := hmem n (List.mem_cons_self n ps)
              rcases hinv.pos [] p rest rfl hp n hn1 hn2 with h | h
              · exact absurd h hn3
              · simp at h
          subst hpushed
          simp only [List.nil_append] at htp2
          have hinv' : LoopInv size stones gc start group rest := by
            refine ⟨hinv.mem_group, ?_, hinv.nodup, ?_, hinv.occupied, ?_, ?_⟩
            · intro q hq
              exact hinv.mem_tp q (List.mem_cons_of_mem _ hq)
            · intro x hx n hn hl
              rcases hinv.closure x hx n hn hl with h | h
              · exact Or.inl h
              · rcases List.mem_cons.mp h with rfl | h'
                · exact Or.inl hp
                · exact Or.inr h'
            · rcases hinv.start_mem with h | h
              · exact Or.inl h
              · rcases List.mem_cons.mp h with rfl | h'
                · exact Or.inl hp
                · exact Or.inr h'
            · intro pre q suf hdec hq n hn hl
              rcases hinv.pos (p :: pre) q suf (by rw [hdec]; rfl) hq n hn hl with h | h
              · exact Or.inl h
              · rcases List.mem_cons.mp h with rfl | h'
                · exact Or.inl hp
                · exact Or.inr h'
          have hmu' : 4 * looseCount stones gc group + rest.length ≤ fuel := by
            simp only [List.length_cons] at hmu
            omega
          have hres := ih group rest hinv' hmu'
          rw [hstep, hscan, htp2]
          exact hres
      -- Case: the popped point is new; it joins the seen-set and its fresh
      -- same-color neighbors are pushed.
      · rw [listInsert_not_mem group p hp] at hstep
        have hpfact := hinv.mem_tp p (List.mem_cons_self p rest)
        cases hscan : scanNeighbors stones gc (p :: group) (neighbors size p) rest with
        | none =>
          obtain ⟨n, hn, hng, hnl⟩ := scanNeighbors_none stones gc (p :: group) _ _ hscan
          rw [hstep, hscan]
          refine ⟨by simp, fun _ => ⟨p, n, hpfact.2, hn, hnl⟩, ?_⟩
          intro G hG
          simp at hG
        | some tp2 =>
          obtain ⟨pushed, htp2, hlen, hmem, hocc, hcomp⟩ :=
            scanNeighbors_some stones gc (p :: group) _ _ _ hscan
          have hinv' : LoopInv size stones gc start (p :: group) tp2 := by
            subst htp2
            refine ⟨?_, ?_, ?_, ?_, ?_, ?_, ?_⟩
            · intro x hx
              rcases List.mem_cons.mp hx with rfl | hx'
              · exact hpfact
              · exact hinv.mem_group x hx'
            · intro x hx
              rcases List.mem_append.mp hx with hx' | hx'
              · obtain ⟨hn1, hn2, hn3⟩ := hmem x hx'
                exact ⟨hn2, Reach.step start p x hpfact.2 hn1 hn2⟩
              · exact hinv.mem_tp x (List.mem_cons_of_mem _ hx')
            · exact List.Nodup.cons hp hinv.nodup
            · intro x hx n hn hl
              rcases List.mem_cons.mp hx with rfl | hx'
              · by_cases hng : n ∈ x :: group
                · rcases List.mem_cons.mp hng with rfl | h'
                  · exact absurd hn (self_not_mem_neighbors size n)
                  · exact Or.inl (List.mem_cons_of_mem _ h')
                · exact Or.inr (List.mem_append.mpr (Or.inl (hcomp n hn hl hng)))
              · rcases hinv.closure x hx' n hn hl with h | h
                · exact Or.inl (List.mem_cons_of_mem _ h)
                · rcases List.mem_cons.mp h with rfl | h'
                  · exact Or.inl (List.mem_cons_self n group)
                  · exact Or.inr (List.mem_append.mpr (Or.inr h'))
            · intro x hx n hn
              rcases List.mem_cons.mp hx with rfl | hx'
              · by_cases hng : n ∈ x :: group
                · rcases List.mem_cons.mp hng with rfl | h'
                  · exact absurd hn (self_not_mem_neighbors size n)
                  · rw [(hinv.mem_group n h').1]
                    simp
                · exact hocc n hn hng
              · exact hinv.occupied x hx' n hn
            · rcases hinv.start_mem with h | h
              · exact Or.inl (List.mem_cons_of_mem _ h)
              · rcases List.mem_cons.mp h with rfl | h'
                · exact Or.inl (List.mem_cons_self start group)
                · exact Or.inr (List.mem_append.mpr (Or.inr h'))
            · intro pre q suf hdec hq n hn hl
              rcases List.append_eq_append_iff.mp hdec with ⟨a, ha1, ha2⟩ | ⟨c, hc1, hc2⟩
              · -- q lies in the old part of the stack; pre extends pushed
                rcases List.mem_cons.mp hq with rfl | hq'
                · by_cases hng : n ∈ q :: group
                  · exact Or.inl hng
                  · refine Or.inr ?_
                    rw [ha1]
                    exact List.mem_append.mpr (Or.inl (hcomp n hn hl hng))
                · rcases hinv.pos (p :: a) q suf (by rw [ha2]; rfl) hq' n hn hl with h | h
                  · exact Or.inl (List.mem_cons_of_mem _ h)
                  · rcases List.mem_cons.mp h with rfl | h'
                    · exact Or.inl (List.mem_cons_self n group)
                    · refine Or.inr ?_
                      rw [ha1]
                      exact List.mem_append.mpr (Or.inr h')
              · cases c with
                | nil =>
                  -- pre is exactly the pushed block and q heads the old stack
                  have hpp : pushed = pre := by simpa using hc1
                  have hrest : rest = q :: suf := by simpa using hc2.symm
                  rcases List.mem_cons.mp hq with rfl | hq'
                  · by_cases hng : n ∈ q :: group
                    · exact Or.inl hng
                    · exact Or.inr (hpp ▸ hcomp n hn hl hng)
                  · rcases hinv.pos [p] q suf (by rw [hrest]; rfl) hq' n hn hl with h | h
                    · exact Or.inl (List.mem_cons_of_mem _ h)
                    · rcases List.mem_cons.mp h with rfl | h'
                      · exact Or.inl (List.mem_cons_self n group)
                      · simp at h'
                | cons q2 c2 =>
                  -- q would sit inside the pushed block, but pushed points are
                  -- unseen while q is seen
                  have hq2 : q2 = q := (List.cons.injEq _ _ _ _ |>.mp hc2.symm).1
                  have hqpushed : q ∈ pushed := by
                    rw [hc1, hq2]
                    exact List.mem_append.mpr (Or.inr (List.mem_cons_self q c2))
                  obtain ⟨_, _, h3⟩ := hmem q hqpushed
                  exact absurd hq h3
          have hmu' : 4 * looseCount stones gc (p :: group) + tp2.length ≤ fuel := by
            have hlt := looseCount_cons_lt stones gc group p hp hpfact.1
            have hlen2 : tp2.length ≤ 4 + rest.length := by
              subst htp2
              have := length_neighbors_le size p
              simp only [List.length_append]
              omega
            simp only [List.length_cons] at hmu
            omega
          have := ih (p :: group) tp2 hinv' hmu'
          rw [hstep, hscan]
          exact this

/-! ## Characterization of `process_captures` -/

theorem process_captures_none (g : Goban) (start : Nat × Nat)
    (h : mapLookup g.stones start = none) : g.process_captures start = g := by
  unfold Goban.process_captures
  rw [h]

theorem process_captures_run (g : Goban) (start : Nat × Nat) (gc : StoneColor)
    (hgc : mapLookup g.stones start = some gc) :
    (HasLiberty g.size g.stones gc start ∧ g.process_captures start = g) ∨
    (¬HasLiberty g.size g.stones gc start ∧
      ∃ G : List (Nat × Nat), G.Nodup ∧
        (∀ q, q ∈ G ↔ Reach g.size g.stones gc start q) ∧
        g.process_captures start =
          { size := g.size
            stones := removeGroup g.stones G
            move_number := g.move_number
            black_captures := g.black_captures +
              (if gc = StoneColor.Black then G.length else 0)
            white_captures := g.white_captures +
              (if gc = StoneColor.White then G.length else 0) }) := by
  have hinv0 : LoopInv g.size g.stones gc start [] [start] := by
    refine ⟨?_, ?_, List.nodup_nil, ?_, ?_, ?_, ?_⟩
    · intro p hp
      simp at hp
    · intro p hp
      rw [List.mem_singleton.mp hp]
      exact ⟨hgc, Reach.refl start hgc⟩
    · intro p hp
      simp at hp
    · intro p hp
      simp at hp
    · exact Or.inr (List.mem_singleton.mpr rfl)
    · intro pre q suf hdec hq
      simp at hq
  have hmu0 : 4 * looseCount g.stones gc [] + ([start] : List (Nat × Nat)).length ≤
      captureFuel g.stones := by
    have := looseCount_le g.stones gc []
    unfold captureFuel
    simp only [List.length_singleton]
    omega
  have hsound := capturesLoop_sound g.size g.stones gc start (captureFuel g.stones)
    [] [start] hinv0 hmu0
  cases hloop : capturesLoop g.size g.stones gc (captureFuel g.stones) [] [start] with
  | outOfFuel => exact absurd hloop hsound.1
  | liberty =>
    refine Or.inl ⟨hsound.2.1 hloop, ?_⟩
    unfold Goban.process_captures
    simp only [hgc, hloop]
  | captured G =>
    obtain ⟨hnd, hiff, hocc⟩ := hsound.2.2 G hloop
    have hnl : ¬HasLiberty g.size g.stones gc start := by
      rintro ⟨q, e, hr, he, hl⟩
      exact hocc q ((hiff q).mpr hr) e he hl
    refine Or.inr ⟨hnl, G, hnd, hiff, ?_⟩
    unfold Goban.process_captures
    simp only [hgc, hloop]
    cases gc <;> simp

theorem process_captures_liberty (g : Goban) (start : Nat × Nat)
    (gc : StoneColor) (hgc : mapLookup g.stones start = some gc)
    (hl : HasLiberty g.size g.stones gc start) :
    g.process_captures start = g := by
  rcases process_captures_run g start gc hgc with ⟨_, h⟩ | ⟨hnl, _⟩
  · exact h
  · exact absurd hl hnl

theorem process_captures_dead (g : Goban) (start : Nat × Nat)
    (gc : StoneColor) (hgc : mapLookup g.stones start = some gc)
    (hnl : ¬HasLiberty g.size g.stones gc start) :
    ∃ G : List (Nat × Nat), G.Nodup ∧
      (∀ q, q ∈ G ↔ Reach g.size g.stones gc start q) ∧
      g.process_captures start =
        { size := g.size
          stones := removeGroup g.stones G
          move_number := g.move_number
          black_captures := g.black_captures +
            (if gc = StoneColor.Black then G.length else 0)
          white_captures := g.white_captures +
            (if gc = StoneColor.White then G.length else 0) } := by
  rcases process_captures_run g start gc hgc with ⟨hl, _⟩ | ⟨_, h⟩
  · exact absurd hl hnl
  · exact h

theorem process_captures_size (g : Goban) (start : Nat × Nat) :
    (g.process_captures start).size = g.size := by
  cases hl : mapLookup g.stones start with
  | none => rw [process_captures_none g start hl]
  | some gc =>
    rcases process_captures_run g start gc hl with ⟨_, h⟩ | ⟨_, G, _, _, h⟩
    · rw [h]
    · rw [h]

theorem process_captures_move (g : Goban) (start : Nat × Nat) :
    (g.process_captures start).move_number = g.move_number := by
  cases hl : mapLookup g.stones start with
  | none => rw [process_captures_none g start hl]
  | some gc =>
    rcases process_captures_run g start gc hl with ⟨_, h⟩ | ⟨_, G, _, _, h⟩
    · rw [h]
    · rw [h]

theorem process_captures_shape (g : Goban) (start q : Nat × Nat) :
    mapLookup (g.process_captures start).stones q = none ∨
    mapLookup (g.process_captures start).stones q = mapLookup g.stones q := by
  cases hl : mapLookup g.stones start with
  | none =>
    rw [process_captures_none g start hl]
    exact Or.inr rfl
  | some gc =>
    rcases process_captures_run g start gc hl with ⟨_, h⟩ | ⟨_, G, _, _, h⟩
    · rw [h]
      exact Or.inr rfl
    · rw [h]
      simp only [mapLookup_removeGroup]
      by_cases hq : q ∈ G
      · simp [hq]
      · simp [hq]

theorem process_captures_lookup_sub (g : Goban) (start q : Nat × Nat)
    (c : StoneColor)
    (h : mapLookup (g.process_captures start).stones q = some c) :
    mapLookup g.stones q = some c := by
  rcases process_captures_shape g start q with h' | h'
  · rw [h'] at h
    exact absurd h (by simp)
  · rw [← h']
    exact h

/-- Stones removed by `process_captures` all carry the group color: a point
occupied by a different color is untouched. -/
theorem process_captures_other_color (g : Goban) (start q : Nat × Nat)
    (c gc : StoneColor) (hgc : mapLookup g.stones start = some gc)
    (hq : mapLookup g.stones q = some c) (hne : c ≠ gc) :
    mapLookup (g.process_captures start).stones q = some c := by
  rcases process_captures_run g start gc hgc with ⟨_, h⟩ | ⟨_, G, _, hiff, h⟩
  · rw [h]
    exact hq
  · rw [h]
    simp only [mapLookup_removeGroup]
    have hqG : q ∉ G := by
      intro hmem
      have := ((hiff q).mp hmem).dest_lookup
      rw [hq] at this
      exact hne (Option.some.inj this)
    simp [hqG, hq]

theorem captureNeighbors_size (oc : StoneColor) :
    ∀ ns (g : Goban), (captureNeighbors oc g ns).size = g.size := by
  intro ns
  induction ns with
  | nil => intro g; rfl
  | cons n ns ih =>
    intro g
    show (captureNeighbors oc g (n :: ns)).size = g.size
    unfold captureNeighbors
    cases mapLookup g.stones n with
    | none => exact ih g
    | some color =>
      by_cases hc : color = oc
      · simp only [if_pos hc]
        rw [ih (g.process_captures n), process_captures_size]
      · simp only [if_neg hc]
        exact ih g

theorem captureNeighbors_move (oc : StoneColor) :
    ∀ ns (g : Goban),
      (captureNeighbors oc g ns).move_number = g.move_number := by
  intro ns
  induction ns with
  | nil => intro g; rfl
  | cons n ns ih =>
    intro g
    unfold captureNeighbors
    cases mapLookup g.stones n with
    | none => exact ih g
    | some color =>
      by_cases hc : color = oc
      · simp only [if_pos hc]
        rw [ih (g.process_captures n), process_captures_move]
      · simp only [if_neg hc]
        exact ih g

theorem captureNeighbors_shape (oc : StoneColor) :
    ∀ ns (g : Goban) (q : Nat × Nat),
      mapLookup (captureNeighbors oc g ns).stones q = none ∨
      mapLookup (captureNeighbors oc g ns).stones q = mapLookup g.stones q := by
  intro ns
  induction ns with
  | nil => intro g q; exact Or.inr rfl
  | cons n ns ih =>
    intro g q
    unfold captureNeighbors
    cases mapLookup g.stones n with
    | none => exact ih g q
    | some color =>
      by_cases hc : color = oc
      · simp only [if_pos hc]
        rcases ih (g.process_captures n) q with h | h
        · exact Or.inl h
        · rw [h]
          exact process_captures_shape g n q
      · simp only [if_neg hc]
        exact ih g q

theorem captureNeighbors_lookup_sub (oc : StoneColor) (ns : List (Nat × Nat))
    (g : Goban) (q : Nat × Nat) (c : StoneColor)
    (h : mapLookup (captureNeighbors oc g ns).stones q = some c) :
    mapLookup g.stones q = some c := by
  rcases captureNeighbors_shape oc ns g q with h' | h'
  · rw [h'] at h
    exact absurd h (by simp)
  · rw [← h']
    exact h

/-! ## Basic shape of `add_stone` and `play_stone` -/

theorem add_stone_cases (g : Goban) (s : Stone) :
    ((s.x > g.size.1 ∨ s.y > g.size.2) ∧
      g.add_stone s = (g, some GobanError.InvalidMoveError)) ∨
    (¬(s.x > g.size.1 ∨ s.y > g.size.2) ∧
      mapContains g.stones (s.x, s.y) = true ∧
      g.add_stone s = (g, some GobanError.InvalidMoveError)) ∨
    (¬(s.x > g.size.1 ∨ s.y > g.size.2) ∧
      mapContains g.stones (s.x, s.y) = false ∧
      g.add_stone s =
        ({ g with stones := mapInsert g.stones (s.x, s.y) s.color }, none)) := by
  unfold Goban.add_stone
  split_ifs with h1 h2
  · exact Or.inl ⟨h1, rfl⟩
  · exact Or.inr (Or.inl ⟨h1, by simpa using h2, rfl⟩)
  · exact Or.inr (Or.inr ⟨h1, by simpa using h2, rfl⟩)

theorem add_stone_error_state (g : Goban) (s : Stone) (e : GobanError)
    (h : (g.add_stone s).2 = some e) : (g.add_stone s).1 = g := by
  rcases add_stone_cases g s with ⟨_, h'⟩ | ⟨_, _, h'⟩ | ⟨_, _, h'⟩ <;> rw [h']
  rw [h'] at h
  simp at h

theorem add_stone_ok_state (g : Goban) (s : Stone)
    (h : (g.add_stone s).2 = none) :
    (g.add_stone s).1 = { g with stones := mapInsert g.stones (s.x, s.y) s.color } := by
  rcases add_stone_cases g s with ⟨_, h'⟩ | ⟨_, _, h'⟩ | ⟨_, _, h'⟩ <;> rw [h'] <;>
    rw [h'] at h <;> simp at h

theorem play_stone_err (g : Goban) (s : Stone) (g1 : Goban) (e : GobanError)
    (h : g.add_stone s = (g1, some e)) : g.play_stone s = (g1, some e) := by
  unfold Goban.play_stone
  rw [h]

theorem play_stone_ok (g : Goban) (s : Stone) (g1 : Goban)
    (h : g.add_stone s = (g1, none)) :
    g.play_stone s =
      (let g2 := captureNeighbors s.color.opponent g1
        (neighbors g1.size (s.x, s.y))
       let g3 := g2.process_captures (s.x, s.y)
       ({ g3 with move_number := g3.move_number + 1 }, none)) := by
  unfold Goban.play_stone
  rw [h]

/-! ## Preservation of the no-dead-group invariant -/

theorem mapLookup_mapInsert (m : StoneMap) (k q : Nat × Nat) (c : StoneColor) :
    mapLookup (mapInsert m k c) q =
      if k = q then some c else mapLookup m q := by
  simp [mapInsert, mapLookup]

theorem StoneColor.opponent_ne (c : StoneColor) : c.opponent ≠ c := by
  cases c <;> decide

theorem StoneColor.eq_opponent_of_ne (c d : StoneColor) (h : c ≠ d) :
    c = d.opponent := by
  cases c <;> cases d <;> first | rfl | exact absurd rfl h

theorem noDead_congr (g g' : Goban) (hs : g'.size = g.size)
    (hst : g'.stones = g.stones) (h : NoDeadGroup g) : NoDeadGroup g' := by
  intro p c hp
  rw [hst] at hp
  unfold HasLiberty
  rw [hs, hst]
  exact h p c hp

theorem allInBounds_of_sub (g g' : Goban) (hsize : g'.size = g.size)
    (hsub : ∀ q c, mapLookup g'.stones q = some c →
      mapLookup g.stones q = some c)
    (h : AllInBounds g) : AllInBounds g' := by
  intro p c hp
  rw [hsize]
  exact h p c (hsub p c hp)

theorem clear_point_noDead (g : Goban) (pt : Nat × Nat)
    (h : NoDeadGroup g) : NoDeadGroup (g.clear_point pt) := by
  intro p c hp
  have hshape : ∀ q, mapLookup (g.clear_point pt).stones q = none ∨
      mapLookup (g.clear_point pt).stones q = mapLookup g.stones q := by
    intro q
    show mapLookup (mapRemove g.stones pt) q = none ∨
      mapLookup (mapRemove g.stones pt) q = mapLookup g.stones q
    rw [mapLookup_mapRemove]
    by_cases hq : q = pt
    · simp [hq]
    · simp [hq]
  have hpg : mapLookup g.stones p = some c := by
    rcases hshape p with h' | h'
    · rw [hp] at h'
      exact absurd h' (by simp)
    · rw [← h']
      exact hp
  have := hasLiberty_transfer hshape hp (h p c hpg)
  exact this

theorem add_stone_ok_lookup (g : Goban) (s : Stone)
    (h : (g.add_stone s).2 = none) :
    mapLookup g.stones (s.x, s.y) = none := by
  rcases add_stone_cases g s with ⟨_, h'⟩ | ⟨_, hc, h'⟩ | ⟨_, hc, h'⟩
  · rw [h'] at h
    simp at h
  · rw [h'] at h
    simp at h
  · unfold mapContains at hc
    exact Option.not_isSome_iff_eq_none.mp (by simp [hc])

/-- After a successful `add_stone`, any zero-liberty group either merged with
the played stone or is an opponent group adjacent to the played point. -/
theorem after_add_dead_groups (g : Goban) (s : Stone) (g1 : Goban)
    (hadd : g.add_stone s = (g1, none))
    (hB : AllInBounds g) (hnd : NoDeadGroup g) :
    ∀ p col, mapLookup g1.stones p = some col →
      ¬HasLiberty g1.size g1.stones col p →
        (col = s.color ∧ Reach g1.size g1.stones s.color p (s.x, s.y)) ∨
        (∃ n ∈ neighbors g1.size (s.x, s.y),
          Reach g1.size g1.stones col p n ∧
          mapLookup g1.stones n = some s.color.opponent) := by
  have h2 : (g.add_stone s).2 = none := by rw [hadd]
  have hkey0 : mapLookup g.stones (s.x, s.y) = none := add_stone_ok_lookup g s h2
  have hg1 : g1 = { g with stones := mapInsert g.stones (s.x, s.y) s.color } := by
    have := add_stone_ok_state g s h2
    rw [hadd] at this
    exact this
  have hsize : g1.size = g.size := by rw [hg1]
  have hlook : ∀ q, mapLookup g1.stones q =
      if (s.x, s.y) = q then some s.color else mapLookup g.stones q := by
    intro q
    rw [hg1]
    exact mapLookup_mapInsert g.stones (s.x, s.y) q s.color
  have hkey1 : mapLookup g1.stones (s.x, s.y) = some s.color := by
    rw [hlook]
    simp
  have hmono : ∀ r c0, mapLookup g.stones r = some c0 →
      mapLookup g1.stones r = some c0 := by
    intro r c0 hr
    rw [hlook]
    by_cases h' : (s.x, s.y) = r
    · rw [← h'] at hr
      rw [hkey0] at hr
      exact absurd hr (by simp)
    · simp [h', hr]
  intro p col hp hnl
  by_cases hpk : p = (s.x, s.y)
  · have hcol : col = s.color := by
      have h' := hkey1
      rw [← hpk, hp] at h'
      exact Option.some.inj h'
    refine Or.inl ⟨hcol, ?_⟩
    rw [hpk]
    exact Reach.refl (s.x, s.y) hkey1
  · have hpg : mapLookup g.stones p = some col := by
      have h' := hlook p
      rw [hp, if_neg (fun h0 => hpk h0.symm)] at h'
      exact h'.symm
    obtain ⟨m, e, hr, he, hl⟩ := hnd p col hpg
    have hr1 : Reach g1.size g1.stones col p m := by
      rw [hsize]
      exact Reach.mono hmono hr
    by_cases hek : e = (s.x, s.y)
    · -- the lost liberty is the played point itself
      have hm : mapLookup g.stones m = some col := hr.dest_lookup
      have hmb := hB m col hm
      have hke : (s.x, s.y) ∈ neighbors g.size m := by
        rw [← hek]
        exact he
      have hmem : m ∈ neighbors g.size (s.x, s.y) :=
        mem_neighbors_symm g.size m (s.x, s.y) hmb.1 hmb.2 hke
      by_cases hcol : col = s.color
      · subst hcol
        refine Or.inl ⟨rfl, ?_⟩
        refine Reach.step p m (s.x, s.y) hr1 ?_ hkey1
        rw [hsize]
        exact hke
      · have hcolop : col = s.color.opponent :=
          StoneColor.eq_opponent_of_ne col s.color hcol
        refine Or.inr ⟨m, ?_, hr1, ?_⟩
        · rw [hsize]
          exact hmem
        · rw [← hcolop]
          exact hr1.dest_lookup
    · exfalso
      apply hnl
      refine ⟨m, e, hr1, ?_, ?_⟩
      · rw [hsize]
        exact he
      · rw [hlook e, if_neg (fun h0 => hek h0.symm)]
        exact hl

/-- Removing a captured opponent group keeps the opponent-loop invariant for
the remaining neighbor list. -/
theorem foldInv_remove (c : StoneColor) (key : Nat × Nat) (gg gg' : Goban)
    (n0 : Nat × Nat) (tail : List (Nat × Nat)) (G : List (Nat × Nat))
    (hl0 : mapLookup gg.stones n0 = some c.opponent)
    (hGiff : ∀ q, q ∈ G ↔ Reach gg.size gg.stones c.opponent n0 q)
    (hsize : gg'.size = gg.size)
    (hlook : ∀ q, mapLookup gg'.stones q =
      if q ∈ G then none else mapLookup gg.stones q)
    (hinv : FoldInv c key gg (n0 :: tail)) :
    FoldInv c key gg' tail := by
  have hshape : ∀ q, mapLookup gg'.stones q = none ∨
      mapLookup gg'.stones q = mapLookup gg.stones q := by
    intro q
    rw [hlook]
    by_cases hq : q ∈ G
    · simp [hq]
    · simp [hq]
  have hkeyG : key ∉ G := by
    intro hk
    have := ((hGiff key).mp hk).dest_lookup
    rw [hinv.key_col] at this
    exact StoneColor.opponent_ne c (Option.some.inj this).symm
  have hkey' : mapLookup gg'.stones key = some c := by
    rw [hlook, if_neg hkeyG]
    exact hinv.key_col
  refine ⟨hkey', ?_⟩
  intro p col hp' hnl'
  have hpG : p ∉ G := by
    intro hpg
    rw [hlook, if_pos hpg] at hp'
    exact absurd hp' (by simp)
  have hp : mapLookup gg.stones p = some col := by
    rw [hlook, if_neg hpG] at hp'
    exact hp'
  have hnl : ¬HasLiberty gg.size gg.stones col p := by
    intro hlib
    apply hnl'
    have := hasLiberty_transfer hshape hp' hlib
    unfold HasLiberty
    rw [hsize]
    exact this
  rcases hinv.dead_to p col hp hnl with ⟨hcol, hreach⟩ | ⟨n, hn, hr, hln⟩
  · subst hcol
    rcases reach_transfer hshape hp' hreach with hr' | ⟨x, e, hx, he, hle⟩
    · refine Or.inl ⟨rfl, ?_⟩
      rw [hsize]
      exact hr'
    · exfalso
      apply hnl'
      unfold HasLiberty
      rw [hsize]
      exact ⟨x, e, hx, he, hle⟩
  · rcases reach_transfer hshape hp' hr with hr' | ⟨x, e, hx, he, hle⟩
    · have hnG : n ∉ G := by
        intro hng
        have := hr'.dest_lookup
        rw [hlook, if_pos hng] at this
        exact absurd this (by simp)
      rcases List.mem_cons.mp hn with rfl | hn'
      · exact absurd ((hGiff n).mpr (Reach.refl n hl0)) hnG
      · refine Or.inr ⟨n, hn', ?_, ?_⟩
        · rw [hsize]
          exact hr'
        · have hcolop : col = c.opponent := by
            have h1 := hr.dest_lookup
            rw [hln] at h1
            exact (Option.some.inj h1).symm
          rw [hlook, if_neg hnG, ← hcolop]
          exact hr.dest_lookup
    · exfalso
      apply hnl'
      unfold HasLiberty
      rw [hsize]
      exact ⟨x, e, hx, he, hle⟩

theorem captureNeighbors_foldInv (c : StoneColor) (key : Nat × Nat) :
    ∀ ns (gg : Goban), FoldInv c key gg ns →
      FoldInv c key (captureNeighbors c.opponent gg ns) [] := by
  intro ns
  induction ns with
  | nil =>
    intro gg h
    exact h
  | cons n0 tail ih =>
    intro gg hinv
    show FoldInv c key (captureNeighbors c.opponent gg (n0 :: tail)) []
    unfold captureNeighbors
    cases hl0 : mapLookup gg.stones n0 with
    | none =>
      apply ih
      refine ⟨hinv.key_col, ?_⟩
      intro p col hp hnl
      rcases hinv.dead_to p col hp hnl with h | ⟨n, hn, hr, hln⟩
      · exact Or.inl h
      · rcases List.mem_cons.mp hn with rfl | hn'
        · rw [hl0] at hln
          exact absurd hln (by simp)
        · exact Or.inr ⟨n, hn', hr, hln⟩
    | some color =>
      by_cases hc : color = c.opponent
      · simp only [if_pos hc]
        subst hc
        rcases process_captures_run gg n0 c.opponent hl0 with
          ⟨hlib, hrec⟩ | ⟨hnlb, G, hGnd, hGiff, hrec⟩
        · rw [hrec]
          apply ih
          refine ⟨hinv.key_col, ?_⟩
          intro p col hp hnl
          rcases hinv.dead_to p col hp hnl with h | ⟨n, hn, hr, hln⟩
          · exact Or.inl h
          · rcases List.mem_cons.mp hn with rfl | hn'
            · exfalso
              apply hnl
              have hcol : col = c.opponent := by
                have h1 := hr.dest_lookup
                rw [hln] at h1
                exact (Option.some.inj h1).symm
              rw [hcol]
              obtain ⟨m, e, hrm, hem, hle⟩ := hlib
              exact ⟨m, e, Reach.trans (hcol ▸ hr) hrm, hem, hle⟩
            · exact Or.inr ⟨n, hn', hr, hln⟩
        · rw [hrec]
          apply ih
          refine foldInv_remove c key gg _ n0 tail G hl0 hGiff rfl ?_ hinv
          intro q
          exact mapLookup_removeGroup G gg.stones q
      · simp only [if_neg hc]
        apply ih
        refine ⟨hinv.key_col, ?_⟩
        intro p col hp hnl
        rcases hinv.dead_to p col hp hnl with h | ⟨n, hn, hr, hln⟩
        · exact Or.inl h
        · rcases List.mem_cons.mp hn with rfl | hn'
          · rw [hl0] at hln
            exact absurd (Option.some.inj hln) hc
          · exact Or.inr ⟨n, hn', hr, hln⟩

/-- After the opponent loop, resolving the played point itself leaves no
zero-liberty group on the board. -/
theorem self_capture_noDead (g2 : Goban) (key : Nat × Nat) (c : StoneColor)
    (hfold : FoldInv c key g2 []) :
    NoDeadGroup (g2.process_captures key) := by
  rcases process_captures_run g2 key c hfold.key_col with
    ⟨hlib, hrec⟩ | ⟨hnlb, G, hGnd, hGiff, hrec⟩
  · rw [hrec]
    intro p col hp
    by_contra hnl
    rcases hfold.dead_to p col hp hnl with ⟨hcol, hreach⟩ | ⟨n, hn, _, _⟩
    · subst hcol
      obtain ⟨m, e, hrm, hem, hle⟩ := hlib
      exact hnl ⟨m, e, Reach.trans hreach hrm, hem, hle⟩
    · simp at hn
  · rw [hrec]
    intro p col hp
    by_contra hnl
    change mapLookup (removeGroup g2.stones G) p = some col at hp
    change ¬HasLiberty g2.size (removeGroup g2.stones G) col p at hnl
    have hlook3 : ∀ q, mapLookup (removeGroup g2.stones G) q =
        if q ∈ G then none else mapLookup g2.stones q :=
      fun q => mapLookup_removeGroup G g2.stones q
    have hshape3 : ∀ q, mapLookup (removeGroup g2.stones G) q = none ∨
        mapLookup (removeGroup g2.stones G) q = mapLookup g2.stones q := by
      intro q
      rw [hlook3]
      by_cases hq : q ∈ G
      · simp [hq]
      · simp [hq]
    have hpG : p ∉ G := by
      intro hpg
      rw [hlook3, if_pos hpg] at hp
      exact absurd hp (by simp)
    have hp2 : mapLookup g2.stones p = some col := by
      rw [hlook3, if_neg hpG] at hp
      exact hp
    have hnl2 : ¬HasLiberty g2.size g2.stones col p := by
      intro hl2
      exact hnl (hasLiberty_transfer hshape3 hp hl2)
    rcases hfold.dead_to p col hp2 hnl2 with ⟨hcol, hreach⟩ | ⟨n, hn, _, _⟩
    · subst hcol
      rcases reach_transfer hshape3 hp hreach with
        hr3 | ⟨x, e, hx, he, hle⟩
      · have h1 := hr3.dest_lookup
        have hkG : key ∈ G := (hGiff key).mpr (Reach.refl key hfold.key_col)
        rw [hlook3, if_pos hkG] at h1
        exact absurd h1 (by simp)
      · exact hnl ⟨x, e, hx, he, hle⟩
    · simp at hn

theorem play_stone_preserves (g : Goban) (s : Stone)
    (hB : AllInBounds g) (hnd : NoDeadGroup g)
    (hx : s.x < g.size.1) (hy : s.y < g.size.2) :
    NoDeadGroup (g.play_stone s).1 ∧ AllInBounds (g.play_stone s).1 := by
  cases hadd : g.add_stone s with
  | mk g1 r =>
    cases r with
    | some e =>
      rw [play_stone_err g s g1 e hadd]
      have hg1 : g1 = g := by
        have h' := add_stone_error_state g s e (by rw [hadd])
        rw [hadd] at h'
        exact h'
      rw [hg1]
      exact ⟨hnd, hB⟩
    | none =>
      rw [play_stone_ok g s g1 hadd]
      have hg1 : g1 = { g with stones := mapInsert g.stones (s.x, s.y) s.color } := by
        have h' := add_stone_ok_state g s (by rw [hadd])
        rw [hadd] at h'
        exact h'
      have hsize1 : g1.size = g.size := by rw [hg1]
      have hlook1 : ∀ q, mapLookup g1.stones q =
          if (s.x, s.y) = q then some s.color else mapLookup g.stones q := by
        intro q
        rw [hg1]
        exact mapLookup_mapInsert g.stones (s.x, s.y) q s.color
      have hkey1 : mapLookup g1.stones (s.x, s.y) = some s.color := by
        rw [hlook1]
        simp
      have hB1 : AllInBounds g1 := by
        intro q c0 hq
        rw [hlook1 q] at hq
        rw [hsize1]
        by_cases hqk : (s.x, s.y) = q
        · rw [← hqk]
          exact ⟨hx, hy⟩
        · rw [if_neg hqk] at hq
          exact hB q c0 hq
      have hfold1 : FoldInv s.color (s.x, s.y) g1 (neighbors g1.size (s.x, s.y)) :=
        ⟨hkey1, after_add_dead_groups g s g1 hadd hB hnd⟩
      have hfold2 := captureNeighbors_foldInv s.color (s.x, s.y)
        (neighbors g1.size (s.x, s.y)) g1 hfold1
      have hnd3 := self_capture_noDead
        (captureNeighbors s.color.opponent g1 (neighbors g1.size (s.x, s.y)))
        (s.x, s.y) s.color hfold2
      constructor
      · refine noDead_congr _ _ rfl rfl hnd3
      · refine allInBounds_of_sub g1 _ ?_ ?_ hB1
        · show ((captureNeighbors s.color.opponent g1
              (neighbors g1.size (s.x, s.y))).process_captures (s.x, s.y)).size = g1.size
          rw [process_captures_size, captureNeighbors_size]
        · intro q c0 hq
          have hq2 := process_captures_lookup_sub
            (captureNeighbors s.color.opponent g1 (neighbors g1.size (s.x, s.y)))
            (s.x, s.y) q c0 hq
          exact captureNeighbors_lookup_sub s.color.opponent _ g1 q c0 hq2

theorem reachableIB_noDead (g : Goban) (h : ReachableIB g) :
    NoDeadGroup g ∧ AllInBounds g := by
  induction h with
  | new bs =>
    constructor
    · intro p c hp
      simp [Goban.new, mapLookup] at hp
    · intro p c hp
      simp [Goban.new, mapLookup] at hp
  | play g s hg hx hy ih =>
    exact play_stone_preserves g s ih.2 ih.1 hx hy
  | clear g p hg ih =>
    constructor
    · exact clear_point_noDead g p ih.1
    · refine allInBounds_of_sub g (g.clear_point p) rfl ?_ ih.2
      intro q c hq
      have h' := mapLookup_mapRemove g.stones p q
      rw [show (g.clear_point p).stones = mapRemove g.stones p from rfl] at hq
      rw [hq] at h'
      by_cases hqp : q = p
      · rw [if_pos hqp] at h'
        exact absurd h'.symm (by simp)
      · rw [if_neg hqp] at h'
        exact h'.symm
  | setNum g n hg ih =>
    constructor
    · exact noDead_congr g (g.set_move_number n) rfl rfl ih.1
    · exact allInBounds_of_sub g (g.set_move_number n) rfl (fun q c hq => hq) ih.2

/-- When every opponent neighbor group has a liberty, the opponent loop of
`play_stone` changes nothing. -/
theorem captureNeighbors_noop (oc : StoneColor) :
    ∀ ns (g : Goban),
      (∀ n ∈ ns, mapLookup g.stones n = some oc →
        HasLiberty g.size g.stones oc n) →
      captureNeighbors oc g ns = g := by
  intro ns
  induction ns with
  | nil =>
    intro g _
    rfl
  | cons n ns ih =>
    intro g h
    show captureNeighbors oc g (n :: ns) = g
    unfold captureNeighbors
    cases hl : mapLookup g.stones n with
    | none => exact ih g (fun m hm => h m (List.mem_cons_of_mem _ hm))
    | some color =>
      by_cases hc : color = oc
      · subst hc
        simp only [if_pos rfl]
        rw [process_captures_liberty g n color hl
          (h n (List.mem_cons_self n ns) hl)]
        exact ih g (fun m hm => h m (List.mem_cons_of_mem _ hm))
      · simp only [if_neg hc]
        exact ih g (fun m hm => h m (List.mem_cons_of_mem _ hm))

/-! ## Claim theorems -/

/-- C1: the code does NOT reject a placement whose coordinate equals the
board dimension: `add_stone` checks `stone.x > self.size.0` instead of `≥`,
so adding at (9, 5) on a 9×9 board succeeds and inserts the stone, and
playing at (4, 9) succeeds as well, contradicting the claimed bounds
rejection of any coordinate ≥ dimension. (Coordinates strictly greater than
the dimension are rejected.) -/
theorem claim_C1_bounds_bug :
    ((Goban.new (9, 9)).add_stone (Stone.mk 9 5 StoneColor.Black)).2 = none ∧
    mapLookup ((Goban.new (9, 9)).add_stone
      (Stone.mk 9 5 StoneColor.Black)).1.stones (9, 5) = some StoneColor.Black ∧
    ((Goban.new (9, 9)).play_stone (Stone.mk 4 9 StoneColor.White)).2 = none ∧
    ((Goban.new (9, 9)).add_stone (Stone.mk 10 5 StoneColor.Black)).2 =
      some GobanError.InvalidMoveError := by
  refine ⟨rfl, rfl, by decide, rfl⟩

/-- C6: every placement operation is atomic: whenever `add_stone` or
`play_stone` returns the invalid-placement error, the returned board is
exactly the input board (placement map, move counter, and both capture
tallies unchanged). -/
theorem claim_C6_atomicity (g : Goban) (s : Stone) (e : GobanError) :
    ((g.add_stone s).2 = some e → (g.add_stone s).1 = g) ∧
    ((g.play_stone s).2 = some e → (g.play_stone s).1 = g) := by
  constructor
  · exact add_stone_error_state g s e
  · intro h
    cases hadd : g.add_stone s with
    | mk g1 r =>
      cases r with
      | some e' =>
        rw [play_stone_err g s g1 e' hadd]
        have h' := add_stone_error_state g s e' (by rw [hadd])
        rw [hadd] at h'
        exact h'
      | none =>
        rw [play_stone_ok g s g1 hadd] at h
        simp at h

theorem claim_C6_witness :
    (((Goban.new (9, 9)).add_stone (Stone.mk 10 5 StoneColor.Black)).1 =
      Goban.new (9, 9)) ∧
    (((Goban.new (9, 9)).play_stone (Stone.mk 10 5 StoneColor.Black)).1 =
      Goban.new (9, 9)) :=
  ⟨(claim_C6_atomicity (Goban.new (9, 9)) (Stone.mk 10 5 StoneColor.Black)
      GobanError.InvalidMoveError).1 (by decide),
   (claim_C6_atomicity (Goban.new (9, 9)) (Stone.mk 10 5 StoneColor.Black)
      GobanError.InvalidMoveError).2 (by decide)⟩

/-- C8: a successful setup-stone placement (`add_stone`) leaves the move
counter unchanged, and every successful played-move placement (`play_stone`)
increments it by exactly one, including self-capturing moves. -/
theorem claim_C8_move_counter (g : Goban) (s : Stone) :
    ((g.add_stone s).2 = none →
      (g.add_stone s).1.move_number = g.move_number) ∧
    ((g.play_stone s).2 = none →
      (g.play_stone s).1.move_number = g.move_number + 1) := by
  constructor
  · intro h
    rw [add_stone_ok_state g s h]
  · intro h
    cases hadd : g.add_stone s with
    | mk g1 r =>
      cases r with
      | some e =>
        rw [play_stone_err g s g1 e hadd] at h
        simp at h
      | none =>
        rw [play_stone_ok g s g1 hadd]
        show ((captureNeighbors s.color.opponent g1
          (neighbors g1.size (s.x, s.y))).process_captures
            (s.x, s.y)).move_number + 1 = g.move_number + 1
        rw [process_captures_move, captureNeighbors_move]
        have hg1 : g1 = { g with stones := mapInsert g.stones (s.x, s.y) s.color } := by
          have h' := add_stone_ok_state g s (by rw [hadd])
          rw [hadd] at h'
          exact h'
        rw [hg1]

theorem claim_C8_witness :
    (((Goban.new (9, 9)).add_stone (Stone.mk 2 3 StoneColor.White)).1.move_number = 0) ∧
    (((Goban.new (9, 9)).play_stone (Stone.mk 2 3 StoneColor.White)).1.move_number = 1) :=
  ⟨(claim_C8_move_counter (Goban.new (9, 9)) (Stone.mk 2 3 StoneColor.White)).1 (by decide),
   (claim_C8_move_counter (Goban.new (9, 9)) (Stone.mk 2 3 StoneColor.White)).2 (by decide)⟩

/-- C9: `hoshi_points` is empty for every size other than 9×9, 13×13 and
19×19; has 4, 5 and 9 points for those; is exactly
(3,3),(3,9),(6,6),(9,3),(9,9) for 13×13; and is empty for 10×10. -/
theorem claim_C9_markers :
    (∀ w h st mn bc wc, (w, h) ≠ ((9 : Nat), (9 : Nat)) →
      (w, h) ≠ (13, 13) → (w, h) ≠ (19, 19) →
      (Goban.mk (w, h) st mn bc wc).hoshi_points = []) ∧
    (Goban.new (9, 9)).hoshi_points.length = 4 ∧
    (Goban.new (13, 13)).hoshi_points.length = 5 ∧
    (Goban.new (19, 19)).hoshi_points.length = 9 ∧
    (Goban.new (13, 13)).hoshi_points = [(3, 3), (3, 9), (6, 6), (9, 3), (9, 9)] ∧
    (Goban.new (10, 10)).hoshi_points = [] := by
  refine ⟨?_, rfl, rfl, rfl, rfl, rfl⟩
  intro w h st mn bc wc h9 h13 h19
  unfold Goban.hoshi_points
  rw [if_neg h9, if_neg h13, if_neg h19]
  rfl

theorem claim_C9_witness :
    (Goban.mk ((10 : Nat), (10 : Nat)) [] 0 0 0).hoshi_points = [] :=
  claim_C9_markers.1 10 10 [] 0 0 0 (by decide) (by decide) (by decide)

/-- C10: on a board with width < 20 and height < 20, a played-move record at
(19, 19) is treated as a pass: `process_node` skips it entirely, returning
the board unchanged with no error. -/
theorem claim_C10_tt_pass (g : Goban) (hw : g.size.1 < 20) (hh : g.size.2 < 20) :
    g.process_prop (SgfOp.B 19 19) = (g, none) ∧
    g.process_prop (SgfOp.W 19 19) = (g, none) := by
  have hpass : g.is_tt_pass (19, 19) = true := by
    unfold Goban.is_tt_pass
    simp [hw, hh]
  constructor
  · show (if g.is_tt_pass (19, 19) then (g, none)
      else g.play_stone (Stone.mk 19 19 StoneColor.Black)) = (g, none)
    rw [if_pos hpass]
  · show (if g.is_tt_pass (19, 19) then (g, none)
      else g.play_stone (Stone.mk 19 19 StoneColor.White)) = (g, none)
    rw [if_pos hpass]

theorem claim_C10_witness :
    (Goban.new (9, 9)).process_prop (SgfOp.B 19 19) = (Goban.new (9, 9), none) :=
  (claim_C10_tt_pass (Goban.new (9, 9)) (by decide) (by decide)).1

/-- C5: when capture resolution removes a group, the tally of the removed
group's own color grows by exactly the number of stones removed, every point
of the group leaves the placement map, nothing else in the map changes, and
the other tally (and the move counter and size) are untouched. -/
theorem claim_C5_capture_tally (g : Goban) (p : Nat × Nat) (c : StoneColor)
    (hc : mapLookup g.stones p = some c)
    (hnl : ¬HasLiberty g.size g.stones c p) :
    ∃ G : List (Nat × Nat), G.Nodup ∧
      (∀ q, q ∈ G ↔ Reach g.size g.stones c p q) ∧
      (∀ q ∈ G, mapLookup (g.process_captures p).stones q = none) ∧
      (∀ q, q ∉ G →
        mapLookup (g.process_captures p).stones q = mapLookup g.stones q) ∧
      (g.process_captures p).black_captures =
        g.black_captures + (if c = StoneColor.Black then G.length else 0) ∧
      (g.process_captures p).white_captures =
        g.white_captures + (if c = StoneColor.White then G.length else 0) ∧
      (g.process_captures p).move_number = g.move_number ∧
      (g.process_captures p).size = g.size := by
  obtain ⟨G, hnd, hiff, hrec⟩ := process_captures_dead g p c hc hnl
  refine ⟨G, hnd, hiff, ?_, ?_, ?_, ?_, ?_, ?_⟩
  · intro q hq
    rw [hrec]
    show mapLookup (removeGroup g.stones G) q = none
    rw [mapLookup_removeGroup, if_pos hq]
  · intro q hq
    rw [hrec]
    show mapLookup (removeGroup g.stones G) q = mapLookup g.stones q
    rw [mapLookup_removeGroup, if_neg hq]
  · rw [hrec]
  · rw [hrec]
  · rw [hrec]
  · rw [hrec]

theorem claim_C5_witness :
    ∃ G : List (Nat × Nat), G.Nodup ∧
      (∀ q, q ∈ G ↔ Reach (Goban.mk (1, 1) [((0, 0), StoneColor.White)] 0 0 0).size
        (Goban.mk (1, 1) [((0, 0), StoneColor.White)] 0 0 0).stones
        StoneColor.White (0, 0) q) ∧
      (∀ q ∈ G, mapLookup ((Goban.mk (1, 1) [((0, 0), StoneColor.White)] 0 0 0).process_captures
        (0, 0)).stones q = none) ∧
      (∀ q, q ∉ G →
        mapLookup ((Goban.mk (1, 1) [((0, 0), StoneColor.White)] 0 0 0).process_captures
          (0, 0)).stones q =
        mapLookup (Goban.mk (1, 1) [((0, 0), StoneColor.White)] 0 0 0).stones q) ∧
      ((Goban.mk (1, 1) [((0, 0), StoneColor.White)] 0 0 0).process_captures
        (0, 0)).black_captures =
        0 + (if StoneColor.White = StoneColor.Black then G.length else 0) ∧
      ((Goban.mk (1, 1) [((0, 0), StoneColor.White)] 0 0 0).process_captures
        (0, 0)).white_captures =
        0 + (if StoneColor.White = StoneColor.White then G.length else 0) ∧
      ((Goban.mk (1, 1) [((0, 0), StoneColor.White)] 0 0 0).process_captures
        (0, 0)).move_number = 0 ∧
      ((Goban.mk (1, 1) [((0, 0), StoneColor.White)] 0 0 0).process_captures
        (0, 0)).size = (1, 1) :=
  claim_C5_capture_tally (Goban.mk (1, 1) [((0, 0), StoneColor.White)] 0 0 0)
    (0, 0) StoneColor.White rfl
    (not_hasLiberty_of_closed [(0, 0)] (by decide) (by decide) (by decide))

/-- C7: `process_captures` is idempotent and conservative: on an unoccupied
point it changes nothing, on a point whose group has a liberty it changes
nothing, and running it twice at the same point equals running it once. -/
theorem claim_C7_idempotent (g : Goban) (p : Nat × Nat) :
    (mapLookup g.stones p = none → g.process_captures p = g) ∧
    (∀ c, mapLookup g.stones p = some c →
      HasLiberty g.size g.stones c p → g.process_captures p = g) ∧
    (g.process_captures p).process_captures p = g.process_captures p := by
  refine ⟨process_captures_none g p, ?_, ?_⟩
  · intro c hc hl
    exact process_captures_liberty g p c hc hl
  · cases hc : mapLookup g.stones p with
    | none =>
      have h1 := process_captures_none g p hc
      rw [h1]
      exact h1
    | some c =>
      rcases process_captures_run g p c hc with ⟨_, hrec⟩ | ⟨_, G, _, hiff, hrec⟩
      · rw [hrec]
        exact hrec
      · rw [hrec]
        apply process_captures_none
        show mapLookup (removeGroup g.stones G) p = none
        rw [mapLookup_removeGroup, if_pos ((hiff p).mpr (Reach.refl p hc))]

theorem claim_C7_witness :
    ((Goban.new (9, 9)).process_captures (0, 0) = Goban.new (9, 9)) ∧
    ((Goban.mk (9, 9) [((4, 4), StoneColor.Black)] 0 0 0).process_captures (4, 4) =
      Goban.mk (9, 9) [((4, 4), StoneColor.Black)] 0 0 0) :=
  ⟨(claim_C7_idempotent (Goban.new (9, 9)) (0, 0)).1 rfl,
   (claim_C7_idempotent (Goban.mk (9, 9) [((4, 4), StoneColor.Black)] 0 0 0)
      (4, 4)).2.1 StoneColor.Black rfl
     ⟨(4, 4), (5, 4), Reach.refl (4, 4) rfl, by decide, rfl⟩⟩

/-- C4 (amended): for every board reachable from an empty board by played
moves at strictly in-bounds points, clears, and move-counter updates, the
placement map contains no maximal same-color connected group with zero
liberties after each operation. (The original claim also quantified over
setup stones and, implicitly, over the out-of-bounds placements accepted by
the buggy bound check; `claim_C4_counterexample` shows a setup-stone sequence
violates it, since `add_stone` runs no capture resolution.) -/
theorem claim_C4_amended (g : Goban) (h : ReachableIB g) : NoDeadGroup g :=
  (reachableIB_noDead g h).1

theorem claim_C4_witness :
    NoDeadGroup ((Goban.new (5, 5)).play_stone (Stone.mk 2 2 StoneColor.Black)).1 :=
  claim_C4_amended ((Goban.new (5, 5)).play_stone (Stone.mk 2 2 StoneColor.Black)).1
    (ReachableIB.play (Goban.new (5, 5)) (Stone.mk 2 2 StoneColor.Black)
      (ReachableIB.new (5, 5)) (by decide) (by decide))

/-- C4 is false as stated: from the empty 3×1 board, the setup-stone
operations AB[(0,0),(2,0)] then AW[(1,0)] all succeed, yet afterwards the
White stone at (1,0) forms a group with zero liberties that remains in the
placement map, because setup placements run no capture resolution. -/
theorem claim_C4_counterexample :
    ((((Goban.new (3, 1)).process_prop (SgfOp.AB [(0, 0), (2, 0)])).1.process_prop
      (SgfOp.AW [(1, 0)])).2 = none) ∧
    ¬ NoDeadGroup ((((Goban.new (3, 1)).process_prop
      (SgfOp.AB [(0, 0), (2, 0)])).1.process_prop (SgfOp.AW [(1, 0)])).1) := by
  constructor
  · rfl
  · intro h
    obtain ⟨q, e, hr, he, hl⟩ := h (1, 0) StoneColor.White (by rfl)
    have hq : q ∈ [((1 : Nat), (0 : Nat))] :=
      reach_subset_of_closed [(1, 0)] (by decide) (by decide) q hr
    rw [List.mem_singleton.mp hq] at he
    fin_cases he <;> exact absurd hl (by decide)

/-- C3: playing a stone whose group has zero liberties, when no adjacent
opposing group is captured (every adjacent opposing group keeps a liberty),
removes the played stone's whole connected group and adds its size to that
color's own tally, leaving the rest of the map and the other tally alone; and
concretely, on 9×9 with White setup stones at (3,4),(5,4),(4,3),(4,5), playing
Black at (4,4) succeeds, the Black stone is immediately removed, and
black_captures rises by exactly 1. -/
theorem claim_C3_true_suicide :
    (∀ (g : Goban) (s : Stone) (g1 : Goban),
      g.add_stone s = (g1, none) →
      ¬HasLiberty g1.size g1.stones s.color (s.x, s.y) →
      (∀ n ∈ neighbors g1.size (s.x, s.y),
        mapLookup g1.stones n = some s.color.opponent →
          HasLiberty g1.size g1.stones s.color.opponent n) →
      ∃ G : List (Nat × Nat), G.Nodup ∧
        (∀ q, q ∈ G ↔ Reach g1.size g1.stones s.color (s.x, s.y) q) ∧
        (∀ q ∈ G, mapLookup (g.play_stone s).1.stones q = none) ∧
        (∀ q, q ∉ G →
          mapLookup (g.play_stone s).1.stones q = mapLookup g1.stones q) ∧
        (g.play_stone s).1.black_captures = g.black_captures +
          (if s.color = StoneColor.Black then G.length else 0) ∧
        (g.play_stone s).1.white_captures = g.white_captures +
          (if s.color = StoneColor.White then G.length else 0)) ∧
    ((scenario9.play_stone (Stone.mk 4 4 StoneColor.Black)).2 = none ∧
     mapLookup (scenario9.play_stone
       (Stone.mk 4 4 StoneColor.Black)).1.stones (4, 4) = none ∧
     (scenario9.play_stone (Stone.mk 4 4 StoneColor.Black)).1.black_captures = 1 ∧
     (scenario9.play_stone (Stone.mk 4 4 StoneColor.Black)).1.white_captures = 0) := by
  constructor
  · intro g s g1 hadd hself hopp
    have hrw := play_stone_ok g s g1 hadd
    have hnoop : captureNeighbors s.color.opponent g1
        (neighbors g1.size (s.x, s.y)) = g1 :=
      captureNeighbors_noop s.color.opponent (neighbors g1.size (s.x, s.y)) g1 hopp
    have hg1 : g1 = { g with stones := mapInsert g.stones (s.x, s.y) s.color } := by
      have h' := add_stone_ok_state g s (by rw [hadd])
      rw [hadd] at h'
      exact h'
    have hkey1 : mapLookup g1.stones (s.x, s.y) = some s.color := by
      rw [hg1]
      show mapLookup (mapInsert g.stones (s.x, s.y) s.color) (s.x, s.y) =
        some s.color
      rw [mapLookup_mapInsert]
      simp
    obtain ⟨G, hnd, hiff, hrec⟩ :=
      process_captures_dead g1 (s.x, s.y) s.color hkey1 hself
    have hstones : (g.play_stone s).1.stones =
        (g1.process_captures (s.x, s.y)).stones := by
      rw [hrw]
      show ((captureNeighbors s.color.opponent g1
        (neighbors g1.size (s.x, s.y))).process_captures (s.x, s.y)).stones =
        (g1.process_captures (s.x, s.y)).stones
      rw [hnoop]
    have hbc : (g.play_stone s).1.black_captures =
        (g1.process_captures (s.x, s.y)).black_captures := by
      rw [hrw]
      show ((captureNeighbors s.color.opponent g1
        (neighbors g1.size (s.x, s.y))).process_captures
          (s.x, s.y)).black_captures =
        (g1.process_captures (s.x, s.y)).black_captures
      rw [hnoop]
    have hwc : (g.play_stone s).1.white_captures =
        (g1.process_captures (s.x, s.y)).white_captures := by
      rw [hrw]
      show ((captureNeighbors s.color.opponent g1
        (neighbors g1.size (s.x, s.y))).process_captures
          (s.x, s.y)).white_captures =
        (g1.process_captures (s.x, s.y)).white_captures
      rw [hnoop]
    have hg1b : g1.black_captures = g.black_captures := by rw [hg1]
    have hg1w : g1.white_captures = g.white_captures := by rw [hg1]
    refine ⟨G, hnd, hiff, ?_, ?_, ?_, ?_⟩
    · intro q hq
      rw [hstones, hrec]
      show mapLookup (removeGroup g1.stones G) q = none
      rw [mapLookup_removeGroup, if_pos hq]
    · intro q hq
      rw [hstones, hrec]
      show mapLookup (removeGroup g1.stones G) q = mapLookup g1.stones q
      rw [mapLookup_removeGroup, if_neg hq]
    · rw [hbc, hrec]
      show g1.black_captures +
        (if s.color = StoneColor.Black then G.length else 0) = _
      rw [hg1b]
    · rw [hwc, hrec]
      show g1.white_captures +
        (if s.color = StoneColor.White then G.length else 0) = _
      rw [hg1w]
  · exact ⟨rfl, rfl, rfl, rfl⟩

theorem claim_C3_witness :
    mapLookup (scenario9.play_stone
      (Stone.mk 4 4 StoneColor.Black)).1.stones (4, 4) = none := by
  obtain ⟨G, hnd, hiff, hrem, hkeep, hb, hw⟩ :=
    claim_C3_true_suicide.1 scenario9 (Stone.mk 4 4 StoneColor.Black)
      ((scenario9.add_stone (Stone.mk 4 4 StoneColor.Black)).1) (by decide)
      (not_hasLiberty_of_closed [(4, 4)] (by decide) (by decide) (by decide))
      (by
        intro n hn hl
        fin_cases hn
        · exact ⟨(5, 4), (6, 4), Reach.refl (5, 4) (by decide), by decide, by decide⟩
        · exact ⟨(3, 4), (2, 4), Reach.refl (3, 4) (by decide), by decide, by decide⟩
        · exact ⟨(4, 5), (4, 6), Reach.refl (4, 5) (by decide), by decide, by decide⟩
        · exact ⟨(4, 3), (4, 2), Reach.refl (4, 3) (by decide), by decide, by decide⟩)
  exact hrem (4, 4) ((hiff (4, 4)).mpr (Reach.refl (4, 4) (by decide)))

theorem reach_agree_iff (size : Nat × Nat) (s1 s2 : StoneMap)
    (col : StoneColor) (n0 : Nat × Nat)
    (hsub : ∀ q c0, mapLookup s2 q = some c0 → mapLookup s1 q = some c0)
    (hagree : ∀ q, Reach size s1 col n0 q →
      mapLookup s2 q = mapLookup s1 q) :
    ∀ q, Reach size s2 col n0 q ↔ Reach size s1 col n0 q := by
  intro q
  constructor
  · exact fun h => Reach.mono hsub h
  · exact fun h => reach_of_agree hagree q h

/-- Through the opponent loop of `play_stone`, an adjacent opponent group
that had no liberties when the stone was placed is fully removed, and the
played stone is never taken: proved by following the loop with the invariant
that the doomed group is either already gone, or still untouched, still dead,
and still waiting behind an unprocessed neighbor.  Requires every stone of
the reference state to be strictly in bounds, so that reach is symmetric. -/
theorem captureNeighbors_kills (c : StoneColor) (key n0 : Nat × Nat)
    (g1 : Goban)
    (hib : ∀ r c0, mapLookup g1.stones r = some c0 →
      r.1 < g1.size.1 ∧ r.2 < g1.size.2)
    (hn0g1 : mapLookup g1.stones n0 = some c.opponent) :
    ∀ ns (gg : Goban),
      gg.size = g1.size →
      mapLookup gg.stones key = some c →
      (∀ q c0, mapLookup gg.stones q = some c0 →
        mapLookup g1.stones q = some c0) →
      ((∀ q, Reach g1.size g1.stones c.opponent n0 q →
          mapLookup gg.stones q = none) ∨
        (n0 ∈ ns ∧
          (∀ q, Reach g1.size g1.stones c.opponent n0 q →
            mapLookup gg.stones q = mapLookup g1.stones q) ∧
          ¬HasLiberty g1.size gg.stones c.opponent n0)) →
      (∀ q, Reach g1.size g1.stones c.opponent n0 q →
        mapLookup (captureNeighbors c.opponent gg ns).stones q = none) ∧
      mapLookup (captureNeighbors c.opponent gg ns).stones key = some c := by
  intro ns
  induction ns with
  | nil =>
    intro gg hsz hkey hsub hAB
    rcases hAB with hA | ⟨hmem, _, _⟩
    · exact ⟨hA, hkey⟩
    · simp at hmem
  | cons n1 tail ih =>
    intro gg hsz hkey hsub hAB
    show (∀ q, _ → mapLookup (captureNeighbors c.opponent gg (n1 :: tail)).stones q = none) ∧ _
    unfold captureNeighbors
    cases hl1 : mapLookup gg.stones n1 with
    | none =>
      refine ih gg hsz hkey hsub ?_
      rcases hAB with hA | ⟨hmem, hagree, hnl⟩
      · exact Or.inl hA
      · rcases List.mem_cons.mp hmem with rfl | hmem'
        · rw [hagree n0 (Reach.refl n0 hn0g1), hn0g1] at hl1
          exact absurd hl1 (by simp)
        · exact Or.inr ⟨hmem', hagree, hnl⟩
    | some color =>
      by_cases hc : color = c.opponent
      · subst hc
        simp only [if_pos rfl]
        rcases process_captures_run gg n1 c.opponent hl1 with
          ⟨hlib, hrec⟩ | ⟨hnlb, G', hGnd, hGiff, hrec⟩
        · -- the processed neighbor group survives; nothing changes
          rw [hrec]
          refine ih gg hsz hkey hsub ?_
          rcases hAB with hA | ⟨hmem, hagree, hnl⟩
          · exact Or.inl hA
          · rcases List.mem_cons.mp hmem with rfl | hmem'
            · exfalso
              apply hnl
              rw [← hsz]
              exact hlib
            · exact Or.inr ⟨hmem', hagree, hnl⟩
        · -- the processed neighbor group is removed
          have hlook' : ∀ q, mapLookup (gg.process_captures n1).stones q =
              if q ∈ G' then none else mapLookup gg.stones q := by
            intro q
            rw [hrec]
            show mapLookup (removeGroup gg.stones G') q = _
            exact mapLookup_removeGroup G' gg.stones q
          have hGcol : ∀ q ∈ G', mapLookup gg.stones q = some c.opponent := by
            intro q hq
            exact ((hGiff q).mp hq).dest_lookup
          have hkey' : mapLookup (gg.process_captures n1).stones key = some c := by
            rw [hlook']
            have hkG : key ∉ G' := by
              intro hk
              have := hGcol key hk
              rw [hkey] at this
              exact StoneColor.opponent_ne c (Option.some.inj this).symm
            rw [if_neg hkG]
            exact hkey
          have hsz' : (gg.process_captures n1).size = g1.size := by
            rw [process_captures_size, hsz]
          have hsub' : ∀ q c0,
              mapLookup (gg.process_captures n1).stones q = some c0 →
              mapLookup g1.stones q = some c0 := by
            intro q c0 hq
            exact hsub q c0 (process_captures_lookup_sub gg n1 q c0 hq)
          have hGiff1 : ∀ q, q ∈ G' ↔
              Reach g1.size gg.stones c.opponent n1 q := by
            intro q
            rw [← hsz]
            exact hGiff q
          refine ih (gg.process_captures n1) hsz' hkey' hsub' ?_
          rcases hAB with hA | ⟨hmem, hagree, hnl⟩
          · refine Or.inl ?_
            intro q hq
            rw [hlook']
            by_cases hqG : q ∈ G'
            · rw [if_pos hqG]
            · rw [if_neg hqG]
              exact hA q hq
          · have hggiff : ∀ q, Reach g1.size gg.stones c.opponent n0 q ↔
                Reach g1.size g1.stones c.opponent n0 q :=
              reach_agree_iff g1.size g1.stones gg.stones c.opponent n0 hsub hagree
            rcases List.mem_cons.mp hmem with rfl | hmem'
            · -- the doomed group is exactly the group just removed
              refine Or.inl ?_
              intro q hq
              rw [hlook', if_pos ((hGiff1 q).mpr ((hggiff q).mpr hq))]
            · by_cases hint : ∃ r, r ∈ G' ∧
                  Reach g1.size g1.stones c.opponent n0 r
              · -- the removed group meets the doomed group, so by symmetry
                -- it contains it entirely
                obtain ⟨r, hrG, hrC⟩ := hint
                have hibgg : ∀ r0 c0, mapLookup gg.stones r0 = some c0 →
                    r0.1 < g1.size.1 ∧ r0.2 < g1.size.2 := by
                  intro r0 c0 h0
                  exact hib r0 c0 (hsub r0 c0 h0)
                have hr1 : Reach g1.size gg.stones c.opponent n1 r := (hGiff1 r).mp hrG
                have hr0 : Reach g1.size gg.stones c.opponent n0 r := (hggiff r).mpr hrC
                have hrn0 : Reach g1.size gg.stones c.opponent r n0 :=
                  reach_symm hibgg hr0
                have hn1n0 : Reach g1.size gg.stones c.opponent n1 n0 :=
                  Reach.trans hr1 hrn0
                refine Or.inl ?_
                intro q hq
                have hq' : Reach g1.size gg.stones c.opponent n1 q :=
                  Reach.trans hn1n0 ((hggiff q).mpr hq)
                rw [hlook', if_pos ((hGiff1 q).mpr hq')]
              · -- the removed group is disjoint from the doomed group
                refine Or.inr ⟨hmem', ?_, ?_⟩
                · intro q hq
                  have hqG : q ∉ G' := fun h0 => hint ⟨q, h0, hq⟩
                  rw [hlook', if_neg hqG]
                  exact hagree q hq
                · rintro ⟨m, e, hrm, hem, hle⟩
                  have hmono' : ∀ r0 c0,
                      mapLookup (gg.process_captures n1).stones r0 = some c0 →
                      mapLookup gg.stones r0 = some c0 := by
                    intro r0 c0 h0
                    exact process_captures_lookup_sub gg n1 r0 c0 h0
                  have hrm0 : Reach g1.size gg.stones c.opponent n0 m :=
                    Reach.mono hmono' hrm
                  rw [hlook'] at hle
                  by_cases heG : e ∈ G'
                  · have hee : Reach g1.size gg.stones c.opponent n0 e :=
                      Reach.step n0 m e hrm0 hem (hGcol e heG)
                    exact hint ⟨e, heG, (hggiff e).mp hee⟩
                  · rw [if_neg heG] at hle
                    exact hnl ⟨m, e, hrm0, hem, hle⟩
      · simp only [if_neg hc]
        refine ih gg hsz hkey hsub ?_
        rcases hAB with hA | ⟨hmem, hagree, hnl⟩
        · exact Or.inl hA
        · rcases List.mem_cons.mp hmem with rfl | hmem'
          · rw [hagree n0 (Reach.refl n0 hn0g1), hn0g1] at hl1
            exact absurd (Option.some.inj hl1).symm hc
          · exact Or.inr ⟨hmem', hagree, hnl⟩

/-- C2 (amended): on a board whose stones are all strictly in bounds, playing
a stone at a strictly in-bounds point whose own group would have zero
liberties, when the placement removes the last liberty of an adjacent
opposing group, removes that whole opposing group from the placement map and
leaves the played stone on the board (opponents are capture-checked before
the played stone's own group).  The original claim quantified over every
board; `claim_C2_counterexample` shows it fails when stones sit on the
out-of-bounds boundary column admitted by the `>` bound check, where
adjacency is not symmetric. -/
theorem claim_C2_amended (g : Goban) (s : Stone) (g1 : Goban) (n0 : Nat × Nat)
    (hB : AllInBounds g) (hx : s.x < g.size.1) (hy : s.y < g.size.2)
    (hadd : g.add_stone s = (g1, none))
    (hn0 : n0 ∈ neighbors g1.size (s.x, s.y))
    (hoppc : mapLookup g1.stones n0 = some s.color.opponent)
    (hdead : ¬HasLiberty g1.size g1.stones s.color.opponent n0)
    (_hself : ¬HasLiberty g1.size g1.stones s.color (s.x, s.y)) :
    (∀ q, Reach g1.size g1.stones s.color.opponent n0 q →
      mapLookup (g.play_stone s).1.stones q = none) ∧
    mapLookup (g.play_stone s).1.stones (s.x, s.y) = some s.color := by
  have hrw := play_stone_ok g s g1 hadd
  have hg1 : g1 = { g with stones := mapInsert g.stones (s.x, s.y) s.color } := by
    have h' := add_stone_ok_state g s (by rw [hadd])
    rw [hadd] at h'
    exact h'
  have hsize1 : g1.size = g.size := by rw [hg1]
  have hlook1 : ∀ q, mapLookup g1.stones q =
      if (s.x, s.y) = q then some s.color else mapLookup g.stones q := by
    intro q
    rw [hg1]
    exact mapLookup_mapInsert g.stones (s.x, s.y) q s.color
  have hkey1 : mapLookup g1.stones (s.x, s.y) = some s.color := by
    rw [hlook1]
    simp
  have hib1 : ∀ r c0, mapLookup g1.stones r = some c0 →
      r.1 < g1.size.1 ∧ r.2 < g1.size.2 := by
    intro q c0 hq
    rw [hlook1 q] at hq
    rw [hsize1]
    by_cases hqk : (s.x, s.y) = q
    · rw [← hqk]
      exact ⟨hx, hy⟩
    · rw [if_neg hqk] at hq
      exact hB q c0 hq
  have hkill := captureNeighbors_kills s.color (s.x, s.y) n0 g1 hib1 hoppc
    (neighbors g1.size (s.x, s.y)) g1 rfl hkey1 (fun q c0 h => h)
    (Or.inr ⟨hn0, fun q _ => rfl, hdead⟩)
  have hg2size : (captureNeighbors s.color.opponent g1
      (neighbors g1.size (s.x, s.y))).size = g1.size :=
    captureNeighbors_size s.color.opponent (neighbors g1.size (s.x, s.y)) g1
  have hn0g2 : mapLookup (captureNeighbors s.color.opponent g1
      (neighbors g1.size (s.x, s.y))).stones n0 = none :=
    hkill.1 n0 (Reach.refl n0 hoppc)
  have hlib2 : HasLiberty (captureNeighbors s.color.opponent g1
        (neighbors g1.size (s.x, s.y))).size
      (captureNeighbors s.color.opponent g1
        (neighbors g1.size (s.x, s.y))).stones s.color (s.x, s.y) := by
    refine ⟨(s.x, s.y), n0, Reach.refl (s.x, s.y) hkill.2, ?_, hn0g2⟩
    rw [hg2size]
    exact hn0
  have hpc := process_captures_liberty
    (captureNeighbors s.color.opponent g1 (neighbors g1.size (s.x, s.y)))
    (s.x, s.y) s.color hkill.2 hlib2
  constructor
  · intro q hq
    rw [hrw]
    show mapLookup ((captureNeighbors s.color.opponent g1
      (neighbors g1.size (s.x, s.y))).process_captures (s.x, s.y)).stones q = none
    rw [hpc]
    exact hkill.1 q hq
  · rw [hrw]
    show mapLookup ((captureNeighbors s.color.opponent g1
      (neighbors g1.size (s.x, s.y))).process_captures
        (s.x, s.y)).stones (s.x, s.y) = some s.color
    rw [hpc]
    exact hkill.2

/-- C2 is false as stated, i.e. for arbitrary boards: on `c2Board` (which the
program can reach through setup stones, including ones on the boundary column
x = width that the `>` bound check accepts), playing Black at (3, 1)
satisfies every hypothesis of the claim — the placement succeeds, the played
stone's own group has zero liberties, and the adjacent opposing White group
through (3, 2) has zero liberties once the stone is placed — yet after the
move the member (3, 2) of that opposing group is still on the board. -/
theorem claim_C2_counterexample :
    ((c2Board.play_stone (Stone.mk 3 1 StoneColor.Black)).2 = none) ∧
    ((3, 2) ∈ neighbors (c2Board.add_stone
      (Stone.mk 3 1 StoneColor.Black)).1.size (3, 1)) ∧
    (mapLookup (c2Board.add_stone
      (Stone.mk 3 1 StoneColor.Black)).1.stones (3, 2) =
        some StoneColor.Black.opponent) ∧
    ¬HasLiberty (c2Board.add_stone (Stone.mk 3 1 StoneColor.Black)).1.size
      (c2Board.add_stone (Stone.mk 3 1 StoneColor.Black)).1.stones
      StoneColor.Black.opponent (3, 2) ∧
    ¬HasLiberty (c2Board.add_stone (Stone.mk 3 1 StoneColor.Black)).1.size
      (c2Board.add_stone (Stone.mk 3 1 StoneColor.Black)).1.stones
      StoneColor.Black (3, 1) ∧
    Reach (c2Board.add_stone (Stone.mk 3 1 StoneColor.Black)).1.size
      (c2Board.add_stone (Stone.mk 3 1 StoneColor.Black)).1.stones
      StoneColor.Black.opponent (3, 2) (3, 2) ∧
    mapLookup (c2Board.play_stone
      (Stone.mk 3 1 StoneColor.Black)).1.stones (3, 2) = some StoneColor.White := by
  refine ⟨by decide, by decide, by decide, ?_, ?_,
    Reach.refl (3, 2) (by decide), by decide⟩
  · exact not_hasLiberty_of_closed [(3, 2), (2, 2), (2, 1), (2, 0)]
      (by decide) (by decide) (by decide)
  · exact not_hasLiberty_of_closed [(3, 1)] (by decide) (by decide) (by decide)

theorem claim_C2_witness :
    mapLookup ((Goban.mk (3, 1)
      [((0, 0), StoneColor.Black), ((1, 0), StoneColor.White)] 0 0 0).play_stone
        (Stone.mk 2 0 StoneColor.Black)).1.stones (1, 0) = none ∧
    mapLookup ((Goban.mk (3, 1)
      [((0, 0), StoneColor.Black), ((1, 0), StoneColor.White)] 0 0 0).play_stone
        (Stone.mk 2 0 StoneColor.Black)).1.stones (2, 0) =
      some StoneColor.Black := by
  obtain ⟨hrem, hkey⟩ := claim_C2_amended
    (Goban.mk (3, 1) [((0, 0), StoneColor.Black), ((1, 0), StoneColor.White)] 0 0 0)
    (Stone.mk 2 0 StoneColor.Black)
    (((Goban.mk (3, 1) [((0, 0), StoneColor.Black), ((1, 0), StoneColor.White)]
      0 0 0).add_stone (Stone.mk 2 0 StoneColor.Black)).1)
    (1, 0)
    (by
      intro p c0 hp
      have hmem := mapLookup_mem _ _ _ hp
      rcases List.mem_cons.mp hmem with h | hmem2
      · rw [show p = (0, 0) from congrArg Prod.fst h]
        exact ⟨by decide, by decide⟩
      rcases List.mem_cons.mp hmem2 with h | hmem3
      · rw [show p = (1, 0) from congrArg Prod.fst h]
        exact ⟨by decide, by decide⟩
      · simp at hmem3)
    (by decide) (by decide) (by decide) (by decide) (by decide)
    (not_hasLiberty_of_closed [(1, 0)] (by decide) (by decide) (by decide))
    (not_hasLiberty_of_closed [(2, 0)] (by decide) (by decide) (by decide))
  exact ⟨hrem (1, 0) (Reach.refl (1, 0) (by decide)), hkey⟩
